import Mathlib

/-!
# fsverity-utils: `libfsverity_compute_digest` (src/lib/compute_digest.c)

A shallow embedding of the fs-verity measurement core: the Merkle tree
builder (`compute_root_hash`), the block-hash step (`hash_one_block`),
the 256-byte descriptor, and the public entry point
(`libfsverity_compute_digest`).

Modelling conventions:

* Bytes are `Nat`; buffers are `List Nat`.  A `struct block_buffer`
  holds `filled` meaningful bytes followed by bytes that the next
  `hash_one_block` zero-fills before hashing, so a buffer is modelled as
  the list of its `filled` meaningful bytes (`filled` = list length).
* The buffer stack `_buffers[1 + FS_VERITY_MAX_LEVELS + 1]` with
  `buffers = &_buffers[1]` is a `List (List Nat)` of length
  `num_levels + 2`; index 0 is `buffers[-1]` (the data block), index
  `L + 1` is tree level `L`, index `num_levels + 1` is the root sink.
* The hash primitives (SHA-256, SHA-512) are black boxes per the spec;
  they enter as function parameters `h256 h512 : List Nat → List Nat`.
  The contract that `final` writes exactly `digest_size` bytes is the
  hypothesis `HashAlgOK`.
* The read callback: the model file content is a `List Nat`; a
  successful `read_fn(fd, buf, n)` serves the next `n` bytes of it.
  Calls to the callback and to the hash context are recorded in an
  event trace.
* C undefined behaviour that the source can actually reach (the
  division by zero in `DIV_ROUND_UP(blocks, hashes_per_block)` when
  `hashes_per_block == 0`) is a distinguished outcome `undef`.
* Machine integers: all arithmetic the code performs fits its C types
  on the paths modelled, except the documented `u8`/`u16` truncations
  in the descriptor and digest structs, written `% 256` / `% 65536`.
-/

namespace FsVerity

/-! ## Helpers from common_defs.h (header not in the sources) -/

/-- Modelled from the spec: ceiling division, the kernel macro
`DIV_ROUND_UP(n, d) = ((n) + (d) - 1) / (d)` (spec section 4.C writes it
as `ceil`). -/
def DIV_ROUND_UP (n d : Nat) : Nat := (n + d - 1) / d

/-- Modelled from the spec: `roundup(x, y)` = round `x` up to a multiple
of `y` (spec section 4.C: `padded_salt_size = round_up(salt_size,
hash_algorithm.block_size)`). -/
def roundup (x y : Nat) : Nat := (x + y - 1) / y * y

/-- Floor of log2, fuel-based so that the kernel can evaluate it (the
fuel `n` itself always suffices since halving reaches 1 within `n`
steps). -/
def log2Aux : Nat → Nat → Nat
  | 0, _ => 0
  | fuel + 1, n => if n ≤ 1 then 0 else log2Aux fuel (n / 2) + 1

/-- Modelled from the spec: `ilog2` = floor of log2, used for the
descriptor field `log_blocksize = log2(block_size)`. -/
def ilog2 (n : Nat) : Nat := log2Aux n n

/-- Modelled from the spec: the block-size validity test "power of two"
(spec section 3).  `n` is a power of two iff it is nonzero and equals
`2 ^ log2 n`. -/
def is_power_of_2 (n : Nat) : Bool := n != 0 && n == 2 ^ ilog2 n

/-- `FS_VERITY_MAX_LEVELS` from compute_digest.c line 14. -/
def FS_VERITY_MAX_LEVELS : Nat := 64

/-! ## Hash algorithms (registry and context are outside src/) -/

/-- `struct fsverity_hash_alg` as the spec describes it (section 3,
HashAlgorithm): digest size, internal compression block size, and the
one-shot `hash_full` capability standing for `create_ctx`/`init`/
`update`/`final`. -/
structure fsverity_hash_alg where
  digest_size : Nat
  block_size : Nat
  hashFull : List Nat → List Nat

/-- The hash-context contract of spec section 4.B: `final` writes
exactly `digest_size` bytes. -/
def HashAlgOK (alg : fsverity_hash_alg) : Prop :=
  ∀ m : List Nat, (alg.hashFull m).length = alg.digest_size

/-- Modelled from the spec: the hash algorithm registry
(`libfsverity_find_hash_alg_by_num`, implemented in hash_algs.c which
is not in the sources).  Per the spec the registered primitives are
SHA-256 (id 1, digest 32, internal block 64) and SHA-512 (id 2, digest
64, internal block 128); lookup of any other id reports absence. -/
def libfsverity_find_hash_alg_by_num (h256 h512 : List Nat → List Nat)
    (num : Nat) : Option fsverity_hash_alg :=
  if num = 1 then some ⟨32, 64, h256⟩
  else if num = 2 then some ⟨64, 128, h512⟩
  else none

/-! ## Observable events of one computation -/

/-- Observable actions of `compute_root_hash`: an invocation of the
read callback (with the implied file offset and the byte count passed),
and the hash-context calls made by `hash_one_block`. -/
inductive Event where
  | read (offset count : Nat)
  | ctxInit
  | update (bytes : List Nat)
  | ctxFinal
deriving DecidableEq, Repr

/-- The read requests of a trace, in order: (file offset, byte count). -/
def readsOf (evs : List Event) : List (Nat × Nat) :=
  evs.filterMap fun e =>
    match e with
    | .read o c => some (o, c)
    | _ => none

/-- The update payloads of a trace, in order. -/
def updatesOf (evs : List Event) : List (List Nat) :=
  evs.filterMap fun e =>
    match e with
    | .update b => some b
    | _ => none

/-! ## The buffer stack -/

/-- Read buffer `i` of the stack (defaulting to empty, only used in
range). -/
def getBuf (bufs : List (List Nat)) (i : Nat) : List Nat := bufs.getD i []

/-- `hash_one_block` (compute_digest.c lines 42-59) at stack index `i`
(tree level `i - 1`).  Zero-pads the current buffer to `block_size`,
hashes `padded_salt ++ block`, appends the digest to buffer `i + 1`,
resets buffer `i`, and reports whether buffer `i + 1` now has less than
`digest_size` bytes of room (`next->filled + digest_size > block_size`,
with `filled` already incremented).  Also returns the hash-context
events, in call order. -/
def hash_one_block (alg : fsverity_hash_alg) (block_size : Nat)
    (salt : List Nat) (bufs : List (List Nat)) (i : Nat) :
    List (List Nat) × Bool × List Event :=
  let cur := getBuf bufs i
  let block := cur ++ List.replicate (block_size - cur.length) 0
  let H := alg.hashFull (salt ++ block)
  let next := getBuf bufs (i + 1) ++ H
  ((bufs.set i []).set (i + 1) next,
   decide (next.length + alg.digest_size > block_size),
   [.ctxInit, .update salt, .update block, .ctxFinal])

/-! ## Number of levels -/

/-- Outcome of the `num_levels` computation (compute_digest.c lines
94-102): the count, or `-EINVAL` from the `WARN_ON(num_levels >=
FS_VERITY_MAX_LEVELS)` guard, or undefined behaviour (the division
`DIV_ROUND_UP(blocks, hashes_per_block)` with `hashes_per_block == 0`).
-/
inductive LevelsResult where
  | ok (n : Nat)
  | einval
  | undef
deriving DecidableEq, Repr

/-- The `for (blocks = ...; blocks > 1; blocks = DIV_ROUND_UP(blocks,
hashes_per_block))` loop of compute_digest.c lines 95-102, fuel-based.
The guard caps the count at `FS_VERITY_MAX_LEVELS`, so the loop runs at
most 65 times; callers pass fuel 66, which is never exhausted. -/
def numLevelsAux (hpb : Nat) : Nat → Nat → Nat → LevelsResult
  | 0, _, _ => .undef
  | fuel + 1, blocks, acc =>
    if blocks > 1 then
      if acc ≥ FS_VERITY_MAX_LEVELS then .einval
      else if hpb = 0 then .undef
      else numLevelsAux hpb fuel (DIV_ROUND_UP blocks hpb) (acc + 1)
    else .ok acc

/-- `num_levels` for a file of `blocks` data blocks with
`hpb = hashes_per_block` digests per tree block. -/
def computeNumLevels (hpb blocks : Nat) : LevelsResult :=
  numLevelsAux hpb 66 blocks 0

/-! ## The streaming loop, the flush phase, compute_root_hash -/

/-- Result of the streaming loop: the buffer stack, or an error code
(the `WARN_ON(level >= num_levels)` guard, compute_digest.c lines
132-135). -/
inductive UpResult where
  | ok (bufs : List (List Nat))
  | err (code : Int)
deriving DecidableEq

/-- The `while (hash_one_block(...)) level++` ascent of
compute_digest.c lines 128-136, entered at stack index `i` (`level =
i - 1`, first entry at `i = 0` = the data block).  After a full
`hash_one_block`, `level++` happens and `WARN_ON(level >= num_levels)`
returns `-EINVAL`; otherwise the new level is hashed in turn.  The
ascent climbs at most to index `num_levels`, so the fuel
`num_levels + 2` used at call sites is never exhausted. -/
def hashUpward (alg : fsverity_hash_alg) (block_size : Nat)
    (salt : List Nat) (num_levels : Nat) :
    Nat → List (List Nat) → Nat → UpResult × List Event
  | 0, _, _ => (.err (-22), [])
  | fuel + 1, bufs, i =>
    match hash_one_block alg block_size salt bufs i with
    | (bufs1, full, evs) =>
      if full then
        if i ≥ num_levels then (.err (-22), evs)
        else
          match hashUpward alg block_size salt num_levels fuel bufs1 (i + 1) with
          | (o, evs1) => (o, evs ++ evs1)
      else (.ok bufs1, evs)

/-- The data blocks the streaming loop reads: for each
`offset = i * block_size < file_size`, the request size
`n = min(block_size, file_size - offset)` and the `n` bytes the
callback serves from the file content. -/
def blockList (content : List Nat) (file_size block_size : Nat) :
    List (Nat × Nat × List Nat) :=
  (List.range (DIV_ROUND_UP file_size block_size)).map fun i =>
    (i * block_size, min block_size (file_size - i * block_size),
     (content.drop (i * block_size)).take
       (min block_size (file_size - i * block_size)))

/-- The streaming loop of compute_digest.c lines 119-137: for each data
block, record the read, place the bytes in `buffers[-1]` (index 0), and
run the ascent. -/
def streamLoop (alg : fsverity_hash_alg) (block_size : Nat)
    (salt : List Nat) (num_levels : Nat) :
    List (Nat × Nat × List Nat) → List (List Nat) → UpResult × List Event
  | [], bufs => (.ok bufs, [])
  | (off, n, bytes) :: rest, bufs =>
    match hashUpward alg block_size salt num_levels (num_levels + 2)
        (bufs.set 0 bytes) 0 with
    | (.ok bufs1, evs) =>
      match streamLoop alg block_size salt num_levels rest bufs1 with
      | (o, evs1) => (o, .read off n :: (evs ++ evs1))
    | (.err c, evs) => (.err c, .read off n :: evs)

/-- The flush phase of compute_digest.c lines 139-143: for each level
index in order, hash the level once if it is nonempty (the return value
of `hash_one_block` is ignored). -/
def flushLoop (alg : fsverity_hash_alg) (block_size : Nat)
    (salt : List Nat) :
    List (List Nat) → List Nat → List (List Nat) × List Event
  | bufs, [] => (bufs, [])
  | bufs, i :: rest =>
    if (getBuf bufs i).length ≠ 0 then
      match hash_one_block alg block_size salt bufs i with
      | (bufs1, _, evs) =>
        match flushLoop alg block_size salt bufs1 rest with
        | (bufs2, evs1) => (bufs2, evs ++ evs1)
    else flushLoop alg block_size salt bufs rest

/-- The salt padded with zeroes to `roundup(salt_size,
alg->block_size)` bytes (compute_digest.c lines 71, 87-92); the empty
list when `salt_size == 0` (the C code then passes `NULL` with length
0, i.e. a no-op update). -/
def padded_salt (alg : fsverity_hash_alg) (salt : List Nat)
    (salt_size : Nat) : List Nat :=
  salt.take salt_size ++
    List.replicate (roundup salt_size alg.block_size - salt_size) 0

/-- Outcome of `compute_root_hash`: the root hash and the event trace,
an error code (with the events so far), or undefined behaviour. -/
inductive RootResult where
  | ok (root : List Nat) (events : List Event)
  | err (code : Int) (events : List Event)
  | undef
deriving DecidableEq

/-- `compute_root_hash` (compute_digest.c lines 65-156).  The root of
an empty file is `digest_size` zero bytes, with no reads and no levels.
Otherwise: compute `num_levels`, run the streaming loop on a zeroed
stack of `num_levels + 2` buffers, flush levels `0 .. num_levels - 1`,
and check the postcondition `buffers[num_levels].filled ==
digest_size` (lines 146-149). -/
def compute_root_hash (alg : fsverity_hash_alg) (content : List Nat)
    (file_size block_size : Nat) (salt : List Nat) (salt_size : Nat) :
    RootResult :=
  if file_size = 0 then .ok (List.replicate alg.digest_size 0) []
  else
    match computeNumLevels (block_size / alg.digest_size)
        (DIV_ROUND_UP file_size block_size) with
    | .undef => .undef
    | .einval => .err (-22) []
    | .ok num_levels =>
      match streamLoop alg block_size (padded_salt alg salt salt_size)
          num_levels (blockList content file_size block_size)
          (List.replicate (num_levels + 2) []) with
      | (.err c, evs) => .err c evs
      | (.ok bufs, evs) =>
        match flushLoop alg block_size (padded_salt alg salt salt_size)
            bufs ((List.range num_levels).map fun L => L + 1) with
        | (bufs2, evs2) =>
          if (getBuf bufs2 (num_levels + 1)).length ≠ alg.digest_size then
            .err (-22) (evs ++ evs2)
          else .ok (getBuf bufs2 (num_levels + 1)) (evs ++ evs2)

/-! ## The descriptor and the public entry point -/

/-- Little-endian 4-byte encoding (`__le32`). -/
def le32 (n : Nat) : List Nat :=
  [n % 256, n / 2 ^ 8 % 256, n / 2 ^ 16 % 256, n / 2 ^ 24 % 256]

/-- Little-endian 8-byte encoding (`__le64`). -/
def le64 (n : Nat) : List Nat :=
  [n % 256, n / 2 ^ 8 % 256, n / 2 ^ 16 % 256, n / 2 ^ 24 % 256,
   n / 2 ^ 32 % 256, n / 2 ^ 40 % 256, n / 2 ^ 48 % 256, n / 2 ^ 56 % 256]

/-- The 256 bytes of `struct fsverity_descriptor` (compute_digest.c
lines 20-31) as `libfsverity_compute_digest` builds them (lines
211-223): zeroed, then `version = 1`, `hash_algorithm` (a `u8`, hence
`% 256`), `log_blocksize = ilog2(block_size)`, `salt_size`,
`data_size = cpu_to_le64(file_size)`, the salt copied into its 32-byte
field when nonempty, and the root hash written in place into its
64-byte field by `compute_root_hash`.  `sig_size` and the 144 reserved
bytes stay zero; the flexible `signature[]` member contributes no
bytes. -/
def fsverity_descriptor_bytes (hash_algorithm block_size salt_size
    file_size : Nat) (root_hash saltPtr : List Nat) : List Nat :=
  [1, hash_algorithm % 256, ilog2 block_size % 256, salt_size % 256]
    ++ le32 0
    ++ le64 file_size
    ++ ((root_hash ++ List.replicate 64 0).take 64)
    ++ ((saltPtr.take salt_size ++ List.replicate 32 0).take 32)
    ++ List.replicate 144 0

/-- The descriptor as claim C1 words it: version 1, the algorithm id,
`log2(block_size)`, the salt size, `sig_size = 0`, the file size in
little-endian, the Merkle root zero-padded right to 64 bytes, the salt
zero-padded right to 32 bytes, and 144 reserved zero bytes. -/
def spec_descriptor_bytes (hash_algorithm block_size salt_size
    file_size : Nat) (root salt : List Nat) : List Nat :=
  [1, hash_algorithm, ilog2 block_size, salt_size]
    ++ le32 0
    ++ le64 file_size
    ++ (root ++ List.replicate (64 - root.length) 0)
    ++ (salt ++ List.replicate (32 - salt.length) 0)
    ++ List.replicate 144 0

/-- `struct libfsverity_merkle_tree_params` (the caller-facing
parameter struct of libfsverity.h, described in spec section 3).
`salt` is `none` for a NULL pointer, otherwise the bytes behind the
pointer; `reserved` are the reserved words the code checks to be
zero. -/
structure libfsverity_merkle_tree_params where
  version : Nat
  hash_algorithm : Nat
  block_size : Nat
  salt_size : Nat
  salt : Option (List Nat)
  file_size : Nat
  reserved : List Nat
deriving DecidableEq

/-- `struct libfsverity_digest`: `digest_algorithm` and `digest_size`
are `u16` fields. -/
structure libfsverity_digest where
  digest_algorithm : Nat
  digest_size : Nat
  digest : List Nat
deriving DecidableEq

/-- The distinct diagnostics of the validation phase
(compute_digest.c lines 170-205), plus the non-validation errors:
the read-callback failure message (line 124) and the internal
`WARN_ON` guards, which print no `libfsverity_error_msg` diagnostic. -/
inductive Diag where
  | missingParams
  | badVersion
  | badBlockSize
  | badSaltSize
  | nullSalt
  | reservedSet
  | unknownAlg (num : Nat)
  | readError
  | internalGuard
deriving DecidableEq, Repr

/-- The `libfsverity_error_msg` format string of each validation
diagnostic, verbatim from compute_digest.c. -/
def diagMsg : Diag → String
  | .missingParams => "missing required parameters for compute_digest"
  | .badVersion => "unsupported version (%u)"
  | .badBlockSize => "unsupported block size (%u)"
  | .badSaltSize => "unsupported salt size (%u)"
  | .nullSalt => "salt_size specified, but salt is NULL"
  | .reservedSet => "reserved bits set in merkle_tree_params"
  | .unknownAlg _ => "unknown hash algorithm: %u"
  | .readError => "error reading file"
  | .internalGuard => ""

/-- Outcome of `libfsverity_compute_digest`: the digest stored through
`digest_ret` together with the event trace, or a negative error code
with its diagnostic, or undefined behaviour.  Allocation failures
(`-ENOMEM`) are not modelled: the model has no failing allocator. -/
inductive CdOutcome where
  | ok (digest : libfsverity_digest) (events : List Event)
  | err (code : Int) (diag : Diag)
  | undef
deriving DecidableEq

/-- `libfsverity_compute_digest` (compute_digest.c lines 158-240).
`read_fn_present` / `digest_ret_present` model the NULL checks on the
function pointer and the out-pointer; `params = none` models a NULL
params pointer.  The validation checks appear in source order; then the
registry lookup, the descriptor construction, `compute_root_hash`
writing the root in place, and the final `libfsverity_hash_full` over
the 256 descriptor bytes.  `digest->digest_algorithm` is a `u16`
(hence `% 65536`). -/
def libfsverity_compute_digest (h256 h512 : List Nat → List Nat)
    (read_fn_present : Bool)
    (params : Option libfsverity_merkle_tree_params)
    (digest_ret_present : Bool) (content : List Nat) : CdOutcome :=
  if read_fn_present = false ∨ params = none ∨ digest_ret_present = false then
    .err (-22) .missingParams
  else
    match params with
    | none => .err (-22) .missingParams
    | some p =>
      if p.version ≠ 1 then .err (-22) .badVersion
      else if is_power_of_2 p.block_size = false then .err (-22) .badBlockSize
      else if p.salt_size > 32 then .err (-22) .badSaltSize
      else if p.salt_size ≠ 0 ∧ p.salt = none then .err (-22) .nullSalt
      else if (p.reserved.all fun r => r == 0) = false then
        .err (-22) .reservedSet
      else
        match libfsverity_find_hash_alg_by_num h256 h512 p.hash_algorithm with
        | none => .err (-22) (.unknownAlg p.hash_algorithm)
        | some alg =>
          match compute_root_hash alg content p.file_size p.block_size
              (p.salt.getD []) p.salt_size with
          | .undef => .undef
          | .err c _ => .err c .internalGuard
          | .ok root tr =>
            .ok ⟨p.hash_algorithm % 65536, alg.digest_size,
                 alg.hashFull (fsverity_descriptor_bytes p.hash_algorithm
                   p.block_size p.salt_size p.file_size root
                   (p.salt.getD []))⟩ tr

/-! ## Spec-side restatements used by individual claims -/

/-- The block-count iteration step of spec section 4.C:
`blocks ← ceil(blocks / hashes_per_block)`. -/
def specLevelStep (hpb : Nat) (blocks : Nat) : Nat := DIV_ROUND_UP blocks hpb

/-- The block count after `j` iterations of the spec loop, starting
from `ceil(file_size / block_size)` blocks. -/
def specBlocksAfter (hpb blocks j : Nat) : Nat := (specLevelStep hpb)^[j] blocks

/-! ## Invariants of the builder

With `hpb = hashes_per_block` and `ds = digest_size`, the stack state
after `k` data blocks is the base-`hpb` counter value `k`: tree level
`L` holds digit `k / hpb^L mod hpb` pending digests, and the root sink
holds `k / hpb^num_levels` digests (0 while `k < hpb^num_levels`). -/

/-- State of the buffer stack between data blocks, after `k` blocks
have been consumed. -/
def StreamInv (ds hpb NL k : Nat) (bufs : List (List Nat)) : Prop :=
  bufs.length = NL + 2 ∧
  getBuf bufs 0 = [] ∧
  (∀ L, L < NL → (getBuf bufs (L + 1)).length = k / hpb ^ L % hpb * ds) ∧
  (getBuf bufs (NL + 1)).length = k / hpb ^ NL * ds

/-- State on entering the ascent `hashUpward` at stack index `i` while
consuming block `k` (0-based): levels `0 .. i - 2` carried (digit
`hpb - 1`, now reset), buffer `i` just became full (`hpb * ds` bytes;
for `i = 0` it is the data block instead), levels `i` and above still
hold the digits of `k`, and the root sink is empty. -/
def Entering (ds hpb NL k i : Nat) (bufs : List (List Nat)) : Prop :=
  bufs.length = NL + 2 ∧ i ≤ NL ∧
  (∀ L, L < i → k / hpb ^ L % hpb = hpb - 1) ∧
  (∀ j, j < i → getBuf bufs j = []) ∧
  (i = 0 → (getBuf bufs 0).length ≤ hpb * ds) ∧
  (1 ≤ i → (getBuf bufs i).length = hpb * ds) ∧
  (∀ L, i ≤ L → L < NL → (getBuf bufs (L + 1)).length = k / hpb ^ L % hpb * ds) ∧
  (getBuf bufs (NL + 1)).length = 0

/-- State of the stack during the flush phase, about to consider level
`L`, for a stream of `m` data blocks: levels below `L` are flushed
(empty), level `L` holds `ceil(m / hpb^L) - hpb * floor(m / hpb^(L+1))`
pending digests (the streamed leftover plus the flushed carry), levels
above are untouched, and so is the root sink.  At `L = num_levels` the
"level `L`" clause denotes the root sink itself. -/
def FlushInv (ds hpb NL m L : Nat) (bufs : List (List Nat)) : Prop :=
  bufs.length = NL + 2 ∧
  (∀ j, j < L → (getBuf bufs (j + 1)).length = 0) ∧
  (getBuf bufs (L + 1)).length =
    (DIV_ROUND_UP m (hpb ^ L) - hpb * (m / hpb ^ (L + 1))) * ds ∧
  (∀ j, L < j → j < NL → (getBuf bufs (j + 1)).length = m / hpb ^ j % hpb * ds) ∧
  (L < NL → (getBuf bufs (NL + 1)).length = m / hpb ^ NL * ds)

/-- A trace consisting of complete `hash_one_block` hash-context
groups: per hashed block, `init`, `update(padded_salt)`,
`update(block)`, `final`, in that order. -/
def StepEvents (salt : List Nat) (evs : List Event) : Prop :=
  ∃ l : List (List Nat),
    evs = l.flatMap fun b => [.ctxInit, .update salt, .update b, .ctxFinal]

/-- The update payloads of a trace alternate `padded_salt`, block,
`padded_salt`, block, ...: exactly two updates per block-hash step,
salt first. -/
def SaltPairs (salt : List Nat) (us : List (List Nat)) : Prop :=
  ∃ l : List (List Nat), us = l.flatMap fun b => [salt, b]

/-! ## Concrete hash functions for witnesses

Stand-ins for the black-box primitives, satisfying the `HashAlgOK`
contract (fixed output length): cheap to evaluate in the kernel. -/

/-- Toy 32-byte hash (stands in for SHA-256 in witnesses). -/
def toy256 (m : List Nat) : List Nat :=
  List.replicate 32 ((m.length + m.foldr (· + ·) 0) % 256)

/-- Toy 64-byte hash (stands in for SHA-512 in witnesses). -/
def toy512 (m : List Nat) : List Nat :=
  List.replicate 64 ((m.length + m.foldr (· + ·) 0) % 251)

/-! # Theorems -/

/-! ## Buffer stack basics -/

theorem getBuf_nil (i : Nat) : getBuf [] i = [] := by
  cases i <;> rfl

theorem getBuf_cons_zero (a : List Nat) (l : List (List Nat)) :
    getBuf (a :: l) 0 = a := rfl

theorem getBuf_cons_succ (a : List Nat) (l : List (List Nat)) (i : Nat) :
    getBuf (a :: l) (i + 1) = getBuf l i := rfl

theorem getBuf_set_self {bufs : List (List Nat)} {i : Nat}
    (v : List Nat) (h : i < bufs.length) :
    getBuf (bufs.set i v) i = v := by
  induction bufs generalizing i with
  | nil => simp at h
  | cons a l ih =>
    cases i with
    | zero => rfl
    | succ i =>
      rw [List.set_cons_succ, getBuf_cons_succ]
      exact ih (by simpa using h)

theorem getBuf_set_ne {i j : Nat} (bufs : List (List Nat))
    (v : List Nat) (h : i ≠ j) :
    getBuf (bufs.set i v) j = getBuf bufs j := by
  induction bufs generalizing i j with
  | nil => rfl
  | cons a l ih =>
    cases i with
    | zero =>
      cases j with
      | zero => exact absurd rfl h
      | succ j => rfl
    | succ i =>
      cases j with
      | zero => rfl
      | succ j =>
        rw [List.set_cons_succ, getBuf_cons_succ, getBuf_cons_succ]
        exact ih fun hij => h (by omega)

theorem getBuf_replicate (n i : Nat) : getBuf (List.replicate n []) i = [] := by
  induction n generalizing i with
  | zero => exact getBuf_nil i
  | succ n ih =>
    cases i with
    | zero => rfl
    | succ i => rw [List.replicate_succ, getBuf_cons_succ]; exact ih i

/-! ## Ceiling division -/

theorem div_round_up_le_iff {d : Nat} (n c : Nat) (hd : 0 < d) :
    DIV_ROUND_UP n d ≤ c ↔ n ≤ c * d := by
  rw [DIV_ROUND_UP, ← Nat.lt_succ_iff, Nat.div_lt_iff_lt_mul hd, Nat.succ_mul]
  omega

theorem div_round_up_one (n : Nat) : DIV_ROUND_UP n 1 = n := by
  simp [DIV_ROUND_UP]

theorem div_round_up_pos {n d : Nat} (hn : 0 < n) (hd : 0 < d) :
    0 < DIV_ROUND_UP n d := by
  by_contra h
  have := (div_round_up_le_iff n 0 hd).1 (by omega)
  omega

theorem div_round_up_le_self {d : Nat} (n : Nat) (hd : 0 < d) :
    DIV_ROUND_UP n d ≤ n :=
  (div_round_up_le_iff n n hd).2 (Nat.le_mul_of_pos_right n hd)

theorem div_round_up_of_dvd {n d : Nat} (hd : 0 < d) (h : d ∣ n) :
    DIV_ROUND_UP n d = n / d := by
  obtain ⟨t, rfl⟩ := h
  rw [DIV_ROUND_UP, Nat.mul_div_cancel_left t hd]
  have h1 : d * t + d - 1 = (d - 1) + d * t := by omega
  rw [h1, Nat.add_mul_div_left _ _ hd, Nat.div_eq_of_lt (by omega)]
  omega

theorem div_round_up_of_not_dvd {n d : Nat} (hd : 0 < d) (h : ¬ d ∣ n) :
    DIV_ROUND_UP n d = n / d + 1 := by
  have hmod : n % d ≠ 0 := fun h0 => h (Nat.dvd_of_mod_eq_zero h0)
  have hlt : n % d < d := Nat.mod_lt n hd
  have hdm : d * (n / d) + n % d = n := Nat.div_add_mod n d
  have hms : d * (n / d + 1) = d * (n / d) + d := Nat.mul_succ d (n / d)
  have h1 : n + d - 1 = (n % d - 1) + d * (n / d + 1) := by omega
  rw [DIV_ROUND_UP, h1, Nat.add_mul_div_left _ _ hd,
    Nat.div_eq_of_lt (by omega)]
  omega

theorem div_round_up_eq_one {n d : Nat} (hn : 0 < n) (hnd : n ≤ d) :
    DIV_ROUND_UP n d = 1 := by
  have hd : 0 < d := by omega
  have h1 : DIV_ROUND_UP n d ≤ 1 := (div_round_up_le_iff n 1 hd).2 (by omega)
  have h2 := div_round_up_pos hn hd
  omega

/-! ## The num_levels loop -/

theorem numLevelsAux_acc_le {hpb : Nat} :
    ∀ fuel blocks acc n, numLevelsAux hpb fuel blocks acc = .ok n →
      acc ≤ n := by
  intro fuel
  induction fuel with
  | zero => intro blocks acc n h; simp [numLevelsAux] at h
  | succ fuel ih =>
    intro blocks acc n h
    rw [numLevelsAux] at h
    by_cases hb : blocks > 1
    · rw [if_pos hb] at h
      by_cases hacc : acc ≥ FS_VERITY_MAX_LEVELS
      · rw [if_pos hacc] at h; exact absurd h (by simp)
      · rw [if_neg hacc] at h
        by_cases hz : hpb = 0
        · rw [if_pos hz] at h; exact absurd h (by simp)
        · rw [if_neg hz] at h
          have := ih _ _ _ h
          omega
    · rw [if_neg hb] at h
      injection h with h
      omega

theorem numLevelsAux_ok_bound {hpb : Nat} :
    ∀ fuel blocks acc n, acc ≤ FS_VERITY_MAX_LEVELS →
      numLevelsAux hpb fuel blocks acc = .ok n →
      n ≤ FS_VERITY_MAX_LEVELS := by
  intro fuel
  induction fuel with
  | zero => intro blocks acc n _ h; simp [numLevelsAux] at h
  | succ fuel ih =>
    intro blocks acc n hacc h
    rw [numLevelsAux] at h
    by_cases hb : blocks > 1
    · rw [if_pos hb] at h
      by_cases hge : acc ≥ FS_VERITY_MAX_LEVELS
      · rw [if_pos hge] at h; exact absurd h (by simp)
      · rw [if_neg hge] at h
        by_cases hz : hpb = 0
        · rw [if_pos hz] at h; exact absurd h (by simp)
        · rw [if_neg hz] at h
          exact ih _ _ _ (by omega) h
    · rw [if_neg hb] at h
      injection h with h
      omega

theorem numLevelsAux_ok_iterate {hpb : Nat} :
    ∀ fuel blocks acc n, numLevelsAux hpb fuel blocks acc = .ok n →
      ∃ m, n = acc + m ∧ specBlocksAfter hpb blocks m ≤ 1 ∧
        ∀ j, j < m → 1 < specBlocksAfter hpb blocks j := by
  intro fuel
  induction fuel with
  | zero => intro blocks acc n h; simp [numLevelsAux] at h
  | succ fuel ih =>
    intro blocks acc n h
    rw [numLevelsAux] at h
    by_cases hb : blocks > 1
    · rw [if_pos hb] at h
      by_cases hge : acc ≥ FS_VERITY_MAX_LEVELS
      · rw [if_pos hge] at h; exact absurd h (by simp)
      · rw [if_neg hge] at h
        by_cases hz : hpb = 0
        · rw [if_pos hz] at h; exact absurd h (by simp)
        · rw [if_neg hz] at h
          obtain ⟨m, hm, hle, hgt⟩ := ih _ _ _ h
          refine ⟨m + 1, by omega, ?_, ?_⟩
          · rw [specBlocksAfter, Function.iterate_succ_apply]
            exact hle
          · intro j hj
            cases j with
            | zero => simpa [specBlocksAfter] using hb
            | succ j =>
              rw [specBlocksAfter, Function.iterate_succ_apply]
              exact hgt j (by omega)
    · rw [if_neg hb] at h
      injection h with h
      exact ⟨0, by omega, by simpa [specBlocksAfter] using hb, by omega⟩

theorem numLevelsAux_einval_iterate {hpb : Nat} :
    ∀ fuel blocks acc, numLevelsAux hpb fuel blocks acc = .einval →
      ∀ j, j + acc ≤ FS_VERITY_MAX_LEVELS →
        1 < specBlocksAfter hpb blocks j := by
  intro fuel
  induction fuel with
  | zero => intro blocks acc h; simp [numLevelsAux] at h
  | succ fuel ih =>
    intro blocks acc h j hj
    rw [numLevelsAux] at h
    by_cases hb : blocks > 1
    · rw [if_pos hb] at h
      by_cases hge : acc ≥ FS_VERITY_MAX_LEVELS
      · rw [if_pos hge] at h
        have hj0 : j = 0 := by omega
        subst hj0
        simpa [specBlocksAfter] using hb
      · rw [if_neg hge] at h
        by_cases hz : hpb = 0
        · rw [if_pos hz] at h; exact absurd h (by simp)
        · rw [if_neg hz] at h
          cases j with
          | zero => simpa [specBlocksAfter] using hb
          | succ j =>
            rw [specBlocksAfter, Function.iterate_succ_apply]
            exact ih _ _ h j (by omega)
    · rw [if_neg hb] at h
      exact absurd h (by simp)

theorem numLevelsAux_ne_undef {hpb : Nat} (h1 : 1 ≤ hpb) :
    ∀ fuel blocks acc, acc ≤ FS_VERITY_MAX_LEVELS →
      66 ≤ fuel + acc →
      numLevelsAux hpb fuel blocks acc ≠ .undef := by
  intro fuel
  induction fuel with
  | zero =>
    intro blocks acc hacc hfuel
    rw [FS_VERITY_MAX_LEVELS] at hacc
    omega
  | succ fuel ih =>
    intro blocks acc hacc hfuel
    rw [numLevelsAux]
    by_cases hb : blocks > 1
    · rw [if_pos hb]
      by_cases hge : acc ≥ FS_VERITY_MAX_LEVELS
      · rw [if_pos hge]; simp
      · rw [if_neg hge, if_neg (by omega)]
        exact ih _ _ (by omega) (by omega)
    · rw [if_neg hb]; simp

theorem numLevelsAux_ok_pow {hpb : Nat} (h1 : 1 ≤ hpb) :
    ∀ fuel blocks acc n, numLevelsAux hpb fuel blocks acc = .ok n →
      ∃ m, n = acc + m ∧ blocks ≤ hpb ^ m := by
  intro fuel
  induction fuel with
  | zero => intro blocks acc n h; simp [numLevelsAux] at h
  | succ fuel ih =>
    intro blocks acc n h
    rw [numLevelsAux] at h
    by_cases hb : blocks > 1
    · rw [if_pos hb] at h
      by_cases hge : acc ≥ FS_VERITY_MAX_LEVELS
      · rw [if_pos hge] at h; exact absurd h (by simp)
      · rw [if_neg hge] at h
        by_cases hz : hpb = 0
        · rw [if_pos hz] at h; exact absurd h (by simp)
        · rw [if_neg hz] at h
          obtain ⟨m, hm, hpow⟩ := ih _ _ _ h
          refine ⟨m + 1, by omega, ?_⟩
          have := (div_round_up_le_iff blocks (hpb ^ m) (by omega)).1 hpow
          calc blocks ≤ hpb ^ m * hpb := this
          _ = hpb ^ (m + 1) := (Nat.pow_succ hpb m).symm
    · rw [if_neg hb] at h
      injection h with h
      exact ⟨0, by omega, by simpa using Nat.le_of_not_lt hb⟩

theorem numLevelsAux_exists_ok {hpb : Nat} (h2 : 2 ≤ hpb) :
    ∀ fuel blocks acc,
      blocks ≤ hpb ^ (FS_VERITY_MAX_LEVELS - acc) →
      acc ≤ FS_VERITY_MAX_LEVELS → 65 ≤ fuel + acc →
      ∃ n, numLevelsAux hpb fuel blocks acc = .ok n ∧
        n ≤ FS_VERITY_MAX_LEVELS := by
  intro fuel
  induction fuel with
  | zero =>
    intro blocks acc hpow hacc hfuel
    rw [FS_VERITY_MAX_LEVELS] at hacc
    omega
  | succ fuel ih =>
    intro blocks acc hpow hacc hfuel
    rw [numLevelsAux]
    by_cases hb : blocks > 1
    · rw [if_pos hb]
      by_cases hge : acc ≥ FS_VERITY_MAX_LEVELS
      · exfalso
        have hz : FS_VERITY_MAX_LEVELS - acc = 0 := by omega
        rw [hz, pow_zero] at hpow
        omega
      · rw [if_neg hge, if_neg (by omega)]
        refine ih _ _ ?_ (by omega) (by omega)
        have hsplit : FS_VERITY_MAX_LEVELS - acc =
            (FS_VERITY_MAX_LEVELS - (acc + 1)) + 1 := by omega
        rw [hsplit, Nat.pow_succ] at hpow
        exact (div_round_up_le_iff blocks _ (by omega)).2 hpow
    · rw [if_neg hb]
      exact ⟨acc, rfl, hacc⟩

/-! ## Base-hpb digit arithmetic

The ascent and flush proofs view the block counter as a base-`hpb`
number whose digit `L` is the number of pending digests at tree level
`L`. -/

theorem mod_pow_of_trailing_max {hpb k : Nat} (h1 : 1 ≤ hpb) :
    ∀ i, (∀ L, L < i → k / hpb ^ L % hpb = hpb - 1) →
      k % hpb ^ i = hpb ^ i - 1 := by
  intro i
  induction i with
  | zero => intro _; simp [Nat.mod_one]
  | succ i ih =>
    intro hmax
    have hpow : 0 < hpb ^ i := Nat.pow_pos (by omega)
    have hdig : k / hpb ^ i % hpb = hpb - 1 := hmax i (by omega)
    have hmod : k % hpb ^ i = hpb ^ i - 1 := ih fun L hL => hmax L (by omega)
    have hdecomp : k % (hpb ^ i * hpb) =
        k % hpb ^ i + hpb ^ i * (k / hpb ^ i % hpb) := Nat.mod_mul
    have h3 : hpb ^ i * (hpb - 1) + hpb ^ i = hpb ^ i * hpb := by
      rw [← Nat.mul_succ]
      congr 1
      omega
    rw [Nat.pow_succ, hdecomp, hmod, hdig]
    omega

theorem succ_div_mod {q b : Nat} (h : q % b + 1 < b) :
    (q + 1) / b = q / b ∧ (q + 1) % b = q % b + 1 := by
  have hb : 0 < b := by omega
  have hdm : b * (q / b) + q % b = q := Nat.div_add_mod q b
  have hq1 : q + 1 = (q % b + 1) + b * (q / b) := by omega
  constructor
  · rw [hq1, Nat.add_mul_div_left _ _ hb, Nat.div_eq_of_lt h]
    omega
  · rw [hq1, Nat.add_mul_mod_self_left, Nat.mod_eq_of_lt h]

theorem succ_eq_pow_of_all_max {hpb k NL : Nat} (h1 : 1 ≤ hpb)
    (hk : k < hpb ^ NL)
    (hmax : ∀ L, L < NL → k / hpb ^ L % hpb = hpb - 1) :
    k + 1 = hpb ^ NL := by
  have hm := mod_pow_of_trailing_max h1 NL hmax
  rw [Nat.mod_eq_of_lt hk] at hm
  have hp : 0 < hpb ^ NL := Nat.pow_pos (by omega)
  omega

theorem pow_digit_zero {hpb NL L : Nat} (h1 : 1 ≤ hpb) (hL : L < NL) :
    hpb ^ NL / hpb ^ L % hpb = 0 := by
  rw [Nat.pow_div (by omega) (by omega)]
  have hsplit : hpb ^ (NL - L) = hpb * hpb ^ (NL - L - 1) := by
    rw [← pow_succ']
    congr 1
    omega
  rw [hsplit]
  exact Nat.mul_mod_right _ _

theorem digits_succ {hpb k NL i : Nat} (h2 : 2 ≤ hpb) (hk : k < hpb ^ NL)
    (hiNL : i < NL)
    (hmax : ∀ L, L < i → k / hpb ^ L % hpb = hpb - 1)
    (hlow : k / hpb ^ i % hpb < hpb - 1) :
    (∀ L, L < i → (k + 1) / hpb ^ L % hpb = 0) ∧
    (k + 1) / hpb ^ i % hpb = k / hpb ^ i % hpb + 1 ∧
    (∀ L, i < L → (k + 1) / hpb ^ L = k / hpb ^ L) ∧
    k + 1 < hpb ^ NL := by
  have h1 : 1 ≤ hpb := by omega
  have hpowi : 0 < hpb ^ i := Nat.pow_pos (by omega)
  have hmodi : k % hpb ^ i = hpb ^ i - 1 := mod_pow_of_trailing_max h1 i hmax
  have hdm : hpb ^ i * (k / hpb ^ i) + k % hpb ^ i = k :=
    Nat.div_add_mod k (hpb ^ i)
  have hk1 : k + 1 = hpb ^ i * (k / hpb ^ i + 1) := by
    rw [Nat.mul_succ]
    omega
  have hqb : k / hpb ^ i % hpb + 1 < hpb := by omega
  obtain ⟨hdivq, hmodq⟩ := succ_div_mod hqb
  have hdiv_i : (k + 1) / hpb ^ i = k / hpb ^ i + 1 := by
    rw [hk1, Nat.mul_div_cancel_left _ hpowi]
  refine ⟨?_, ?_, ?_, ?_⟩
  · intro L hL
    have hsplit : hpb ^ i = hpb ^ L * hpb ^ (i - L) := by
      rw [← Nat.pow_add]
      congr 1
      omega
    have hiL : hpb ^ (i - L) = hpb * hpb ^ (i - L - 1) := by
      rw [← pow_succ']
      congr 1
      omega
    rw [hk1, hsplit, Nat.mul_assoc,
      Nat.mul_div_cancel_left _ (Nat.pow_pos (show 0 < hpb by omega)),
      hiL, Nat.mul_assoc]
    exact Nat.mul_mod_right _ _
  · rw [hdiv_i, hmodq]
  · intro L hL
    have hLsplit : hpb ^ L = hpb ^ i * hpb ^ (L - i) := by
      rw [← Nat.pow_add]
      congr 1
      omega
    have hLi : hpb ^ (L - i) = hpb * hpb ^ (L - i - 1) := by
      rw [← pow_succ']
      congr 1
      omega
    rw [hLsplit, ← Nat.div_div_eq_div_mul, ← Nat.div_div_eq_div_mul,
      hdiv_i, hLi, ← Nat.div_div_eq_div_mul, ← Nat.div_div_eq_div_mul,
      hdivq]
  · have hle : k + 1 ≤ hpb ^ NL := hk
    rcases Nat.lt_or_ge (k + 1) (hpb ^ NL) with h | h
    · exact h
    · exfalso
      have heq : k + 1 = hpb ^ NL := by omega
      have hNs : hpb ^ NL = hpb ^ i * hpb ^ (NL - i) := by
        rw [← Nat.pow_add]
        congr 1
        omega
      have hq1 : k / hpb ^ i + 1 = hpb ^ (NL - i) :=
        Nat.eq_of_mul_eq_mul_left hpowi (by rw [← hk1, heq, hNs])
      have hNi : hpb ^ (NL - i) = hpb * hpb ^ (NL - i - 1) := by
        rw [← pow_succ']
        congr 1
        omega
      have hmod0 : hpb ^ (NL - i) % hpb = 0 := by
        rw [hNi]
        exact Nat.mul_mod_right _ _
      rw [← hq1, hmodq] at hmod0
      omega

/-! ## Trace structure -/

theorem readsOf_append (e1 e2 : List Event) :
    readsOf (e1 ++ e2) = readsOf e1 ++ readsOf e2 :=
  List.filterMap_append e1 e2 _

theorem updatesOf_append (e1 e2 : List Event) :
    updatesOf (e1 ++ e2) = updatesOf e1 ++ updatesOf e2 :=
  List.filterMap_append e1 e2 _

theorem readsOf_group (salt block : List Nat) :
    readsOf [.ctxInit, .update salt, .update block, .ctxFinal] = [] := rfl

theorem updatesOf_group (salt block : List Nat) :
    updatesOf [.ctxInit, .update salt, .update block, .ctxFinal] =
      [salt, block] := rfl

theorem readsOf_read_cons (off n : Nat) (evs : List Event) :
    readsOf (.read off n :: evs) = (off, n) :: readsOf evs := rfl

theorem updatesOf_read_cons (off n : Nat) (evs : List Event) :
    updatesOf (.read off n :: evs) = updatesOf evs := rfl

theorem stepEvents_nil (salt : List Nat) : StepEvents salt [] := ⟨[], rfl⟩

theorem stepEvents_group (salt block : List Nat) :
    StepEvents salt [.ctxInit, .update salt, .update block, .ctxFinal] :=
  ⟨[block], by simp⟩

theorem stepEvents_append {salt : List Nat} {e1 e2 : List Event}
    (h1 : StepEvents salt e1) (h2 : StepEvents salt e2) :
    StepEvents salt (e1 ++ e2) := by
  obtain ⟨l1, rfl⟩ := h1
  obtain ⟨l2, rfl⟩ := h2
  exact ⟨l1 ++ l2, by rw [List.flatMap_append]⟩

theorem stepEvents_reads {salt : List Nat} {evs : List Event}
    (h : StepEvents salt evs) : readsOf evs = [] := by
  obtain ⟨l, rfl⟩ := h
  induction l with
  | nil => rfl
  | cons b l ih =>
    rw [List.flatMap_cons, readsOf_append, ih, readsOf_group]
    rfl

theorem stepEvents_updates {salt : List Nat} {evs : List Event}
    (h : StepEvents salt evs) : SaltPairs salt (updatesOf evs) := by
  obtain ⟨l, rfl⟩ := h
  refine ⟨l, ?_⟩
  induction l with
  | nil => rfl
  | cons b l ih =>
    rw [List.flatMap_cons, updatesOf_append, ih, updatesOf_group,
      List.flatMap_cons]

/-! ## Double updates of the stack -/

theorem getBuf_set2_ne {bufs : List (List Nat)} {i1 i2 j : Nat}
    (v1 v2 : List Nat) (h1 : i1 ≠ j) (h2 : i2 ≠ j) :
    getBuf ((bufs.set i1 v1).set i2 v2) j = getBuf bufs j := by
  rw [getBuf_set_ne _ _ h2, getBuf_set_ne _ _ h1]

theorem getBuf_set2_fst {bufs : List (List Nat)} {i1 i2 : Nat}
    (v1 v2 : List Nat) (hne : i2 ≠ i1) (hlt : i1 < bufs.length) :
    getBuf ((bufs.set i1 v1).set i2 v2) i1 = v1 := by
  rw [getBuf_set_ne _ _ hne, getBuf_set_self _ hlt]

theorem getBuf_set2_snd {bufs : List (List Nat)} {i1 i2 : Nat}
    (v1 v2 : List Nat) (hlt : i2 < bufs.length) :
    getBuf ((bufs.set i1 v1).set i2 v2) i2 = v2 := by
  apply getBuf_set_self
  rw [List.length_set]
  exact hlt

/-! ## The ascent: one data block advances the base-hpb counter

For full blocks (`block_size = hpb * digest_size`, at least two hashes
per block), consuming data block `k` (0-based) runs the
`hash_one_block` ascent to completion without tripping the
`WARN_ON(level >= num_levels)` guard, and leaves the stack holding the
counter value `k + 1`. -/

theorem hashUpward_carry {alg : fsverity_hash_alg} {bs hpb NL : Nat}
    (salt : List Nat)
    (halg : HashAlgOK alg) (hds : 0 < alg.digest_size)
    (hbs : bs = hpb * alg.digest_size) (h2 : 2 ≤ hpb) :
    ∀ fuel i k bufs, NL + 1 ≤ fuel + i → k < hpb ^ NL →
      Entering alg.digest_size hpb NL k i bufs →
      ∃ bufs2 evs, hashUpward alg bs salt NL fuel bufs i = (.ok bufs2, evs) ∧
        StreamInv alg.digest_size hpb NL (k + 1) bufs2 ∧
        StepEvents salt evs := by
  intro fuel
  induction fuel with
  | zero =>
    intro i k bufs hfuel hk hE
    obtain ⟨hlen, hiNL, hmax, hzero, hdata, hfull, hdigits, hroot⟩ := hE
    omega
  | succ fuel ih =>
    intro i k bufs hfuel hk hE
    obtain ⟨hlen, hiNL, hmax, hzero, hdata, hfull, hdigits, hroot⟩ := hE
    rw [hashUpward]
    simp only [hash_one_block]
    set ds := alg.digest_size with hdsdef
    set cur := getBuf bufs i with hcur
    set block := cur ++ List.replicate (bs - cur.length) 0 with hblock
    set H := alg.hashFull (salt ++ block) with hH
    set next := getBuf bufs (i + 1) ++ H with hnext
    set bufs1 := (bufs.set i []).set (i + 1) next with hbufs1
    have lenH : H.length = ds := halg _
    by_cases hieq : i = NL
    · subst hieq
      have hnextlen : next.length = ds := by
        rw [hnext, List.length_append, lenH, hroot]
        omega
      have hcond : ¬ (next.length + ds > bs) := by
        rw [hnextlen, hbs]
        have h3 : 2 * ds ≤ hpb * ds := Nat.mul_le_mul_right ds h2
        omega
      rw [if_neg (by simpa using hcond)]
      have hk1 : k + 1 = hpb ^ i := succ_eq_pow_of_all_max (by omega) hk hmax
      refine ⟨bufs1, _, rfl, ⟨?_, ?_, ?_, ?_⟩, stepEvents_group salt block⟩
      · rw [hbufs1, List.length_set, List.length_set, hlen]
      · by_cases hNL0 : i = 0
        · subst hNL0
          rw [hbufs1]
          exact getBuf_set2_fst _ _ (by omega) (by omega)
        · rw [hbufs1, getBuf_set2_ne _ _ (by omega) (by omega)]
          exact hzero 0 (by omega)
      · intro L hL
        have hdig0 : (k + 1) / hpb ^ L % hpb = 0 := by
          rw [hk1]
          exact pow_digit_zero (by omega) hL
        rw [hdig0, Nat.zero_mul]
        by_cases hLi : L + 1 = i
        · rw [hbufs1, hLi, getBuf_set2_fst _ _ (by omega) (by omega)]
          rfl
        · rw [hbufs1, getBuf_set2_ne _ _ (by omega) (by omega),
            hzero (L + 1) (by omega)]
          rfl
      · rw [hbufs1, getBuf_set2_snd _ _ (by omega), hnextlen, hk1,
          Nat.div_self (Nat.pow_pos (by omega)), Nat.one_mul]
    · have hilt : i < NL := by omega
      set di := k / hpb ^ i % hpb with hdi
      have hdilt : di < hpb := Nat.mod_lt _ (by omega)
      have hnexti : (getBuf bufs (i + 1)).length = di * ds :=
        hdigits i (le_refl i) hilt
      have hnextlen : next.length = di * ds + ds := by
        rw [hnext, List.length_append, lenH, hnexti]
      by_cases hdimax : di = hpb - 1
      · have hfullmul : di * ds + ds = hpb * ds := by
          rw [hdimax, ← Nat.succ_mul]
          congr 1
          omega
        have hcond : next.length + ds > bs := by
          rw [hnextlen, hbs, hfullmul]
          omega
        rw [if_pos (by simpa using hcond), if_neg (by omega)]
        have hE1 : Entering ds hpb NL k (i + 1) bufs1 := by
          refine ⟨by rw [hbufs1, List.length_set, List.length_set, hlen],
            by omega, ?_, ?_, fun h => absurd h (by omega), ?_, ?_, ?_⟩
          · intro L hL
            rcases Nat.lt_or_ge L i with h | h
            · exact hmax L h
            · have hLi : L = i := by omega
              rw [hLi, ← hdi, hdimax]
          · intro j hj
            rcases Nat.lt_or_ge j i with h | h
            · rw [hbufs1, getBuf_set2_ne _ _ (by omega) (by omega)]
              exact hzero j h
            · have hji : j = i := by omega
              rw [hbufs1, hji]
              exact getBuf_set2_fst _ _ (by omega) (by omega)
          · intro _
            rw [hbufs1, getBuf_set2_snd _ _ (by omega), hnextlen, hfullmul]
          · intro L hL1 hL2
            rw [hbufs1, getBuf_set2_ne _ _ (by omega) (by omega)]
            exact hdigits L (by omega) hL2
          · rw [hbufs1, getBuf_set2_ne _ _ (by omega) (by omega)]
            exact hroot
        obtain ⟨bufs2, evs1, hrun, hinv, hsteps⟩ :=
          ih (i + 1) k bufs1 (by omega) hk hE1
        refine ⟨bufs2,
          [Event.ctxInit, Event.update salt, Event.update block,
            Event.ctxFinal] ++ evs1, ?_,
          hinv, stepEvents_append (stepEvents_group salt block) hsteps⟩
        rw [hrun]
      · have hdilt2 : di < hpb - 1 := by omega
        have hcond : ¬ (next.length + ds > bs) := by
          rw [hnextlen, hbs]
          have h3 : (di + 2) * ds ≤ hpb * ds :=
            Nat.mul_le_mul_right ds (by omega)
          have h4 : (di + 2) * ds = di * ds + ds + ds := by ring
          omega
        rw [if_neg (by simpa using hcond)]
        obtain ⟨hd0, hdsucc, hdsame, hklt⟩ :=
          digits_succ h2 hk hilt hmax (by omega)
        refine ⟨bufs1, _, rfl, ⟨?_, ?_, ?_, ?_⟩, stepEvents_group salt block⟩
        · rw [hbufs1, List.length_set, List.length_set, hlen]
        · by_cases hi0 : i = 0
          · rw [hbufs1, hi0]
            exact getBuf_set2_fst _ _ (by omega) (by omega)
          · rw [hbufs1, getBuf_set2_ne _ _ (by omega) (by omega)]
            exact hzero 0 (by omega)
        · intro L hL
          rcases Nat.lt_trichotomy L i with h | h | h
          · have hdig : (k + 1) / hpb ^ L % hpb = 0 := hd0 L h
            rw [hdig, Nat.zero_mul]
            by_cases hLi : L + 1 = i
            · rw [hbufs1, hLi, getBuf_set2_fst _ _ (by omega) (by omega)]
              rfl
            · rw [hbufs1, getBuf_set2_ne _ _ (by omega) (by omega),
                hzero (L + 1) (by omega)]
              rfl
          · rw [hbufs1, h, getBuf_set2_snd _ _ (by omega), hnextlen, hdsucc,
              ← hdi, Nat.succ_mul]
          · rw [hbufs1, getBuf_set2_ne _ _ (by omega) (by omega),
              hdigits L (by omega) hL, hdsame L h]
        · rw [hbufs1, getBuf_set2_ne _ _ (by omega) (by omega), hroot,
            Nat.div_eq_of_lt hklt, Nat.zero_mul]

/-! ## The streaming loop and the flush phase -/

theorem saltPairs_append {salt : List Nat} {u1 u2 : List (List Nat)}
    (h1 : SaltPairs salt u1) (h2 : SaltPairs salt u2) :
    SaltPairs salt (u1 ++ u2) := by
  obtain ⟨l1, rfl⟩ := h1
  obtain ⟨l2, rfl⟩ := h2
  exact ⟨l1 ++ l2, by rw [List.flatMap_append]⟩

theorem streamLoop_carry {alg : fsverity_hash_alg} {bs hpb NL : Nat}
    (salt : List Nat) (halg : HashAlgOK alg) (hds : 0 < alg.digest_size)
    (hbs : bs = hpb * alg.digest_size) (h2 : 2 ≤ hpb) :
    ∀ blks k bufs, StreamInv alg.digest_size hpb NL k bufs →
      k + blks.length ≤ hpb ^ NL →
      (∀ b ∈ blks, (b.2.2 : List Nat).length ≤ bs) →
      ∃ bufs2 evs, streamLoop alg bs salt NL blks bufs = (.ok bufs2, evs) ∧
        StreamInv alg.digest_size hpb NL (k + blks.length) bufs2 ∧
        readsOf evs = blks.map (fun b => (b.1, b.2.1)) ∧
        SaltPairs salt (updatesOf evs) := by
  intro blks
  induction blks with
  | nil =>
    intro k bufs hinv _ _
    exact ⟨bufs, [], rfl, by simpa using hinv, rfl, ⟨[], rfl⟩⟩
  | cons b rest ih =>
    obtain ⟨off, n, bytes⟩ := b
    intro k bufs hinv hcount hlens
    obtain ⟨hlen, hzero, hdig, hroot⟩ := hinv
    have hklt : k < hpb ^ NL := by
      have := rest.length
      simp only [List.length_cons] at hcount
      omega
    have hE : Entering alg.digest_size hpb NL k 0 (bufs.set 0 bytes) := by
      refine ⟨by rw [List.length_set, hlen], by omega,
        fun L hL => absurd hL (by omega),
        fun j hj => absurd hj (by omega), ?_,
        fun h1 => absurd h1 (by omega), ?_, ?_⟩
      · intro _
        rw [getBuf_set_self _ (by omega), ← hbs]
        exact hlens (off, n, bytes) (by simp)
      · intro L hL1 hL2
        rw [getBuf_set_ne _ _ (by omega)]
        exact hdig L hL2
      · rw [getBuf_set_ne _ _ (by omega), hroot, Nat.div_eq_of_lt hklt,
          Nat.zero_mul]
    obtain ⟨bufs1, evs, hrun, hinv1, hsteps⟩ :=
      hashUpward_carry salt halg hds hbs h2 (NL + 2) 0 k (bufs.set 0 bytes)
        (by omega) hklt hE
    obtain ⟨bufs2, evs1, hrun2, hinv2, hreads2, hupd2⟩ :=
      ih (k + 1) bufs1 hinv1 (by simp only [List.length_cons] at hcount; omega)
        (fun b hb => hlens b (by simp [hb]))
    refine ⟨bufs2, .read off n :: (evs ++ evs1), ?_, ?_, ?_, ?_⟩
    · rw [streamLoop, hrun]
      dsimp only
      rw [hrun2]
    · simp only [List.length_cons]
      have harith : k + (rest.length + 1) = k + 1 + rest.length := by omega
      rw [harith]
      exact hinv2
    · rw [readsOf_read_cons, readsOf_append, stepEvents_reads hsteps,
        hreads2, List.map_cons]
      rfl
    · rw [updatesOf_read_cons, updatesOf_append]
      exact saltPairs_append (stepEvents_updates hsteps) hupd2

theorem flushLoop_carry {alg : fsverity_hash_alg} {bs hpb NL m : Nat}
    (salt : List Nat) (halg : HashAlgOK alg) (hds : 0 < alg.digest_size)
    (h2 : 2 ≤ hpb) (hmN : m ≤ hpb ^ NL) :
    ∀ t L bufs, t = NL - L → L ≤ NL →
      FlushInv alg.digest_size hpb NL m L bufs →
      ∃ bufs2 evs,
        flushLoop alg bs salt bufs (List.range' (L + 1) t) = (bufs2, evs) ∧
        FlushInv alg.digest_size hpb NL m NL bufs2 ∧
        StepEvents salt evs := by
  intro t
  induction t with
  | zero =>
    intro L bufs ht hL hinv
    have hLN : L = NL := by omega
    subst hLN
    exact ⟨bufs, [], rfl, hinv, stepEvents_nil salt⟩
  | succ t ihh =>
    intro L bufs ht hL hinv
    obtain ⟨hlen, hzero, hcurr, hup, hroot⟩ := hinv
    have hLN : L < NL := by omega
    rw [List.range'_succ, flushLoop]
    set ds := alg.digest_size with hdsdef
    have hpowL : 0 < hpb ^ L := Nat.pow_pos (by omega)
    have hpowL1 : 0 < hpb ^ (L + 1) := Nat.pow_pos (by omega)
    have hdd1 : m / hpb ^ (L + 1) = m / hpb ^ L / hpb := by
      rw [Nat.div_div_eq_div_mul, ← Nat.pow_succ]
    have hdd2 : m / hpb ^ (L + 2) = m / hpb ^ (L + 1) / hpb := by
      rw [Nat.div_div_eq_div_mul, ← Nat.pow_succ]
    have hfloor_le : hpb * (m / hpb ^ (L + 1)) ≤ m / hpb ^ L := by
      rw [hdd1]
      have h5 := Nat.div_add_mod (m / hpb ^ L) hpb
      omega
    have hfloor_le2 : hpb * (m / hpb ^ (L + 2)) ≤ m / hpb ^ (L + 1) := by
      rw [hdd2]
      have h5 := Nat.div_add_mod (m / hpb ^ (L + 1)) hpb
      omega
    have hceil_ge : m / hpb ^ L ≤ DIV_ROUND_UP m (hpb ^ L) :=
      Nat.div_le_div_right (by omega)
    have hmodid : m / hpb ^ (L + 1) % hpb =
        m / hpb ^ (L + 1) - hpb * (m / hpb ^ (L + 2)) := by
      rw [hdd2]
      have h5 := Nat.div_add_mod (m / hpb ^ (L + 1)) hpb
      omega
    by_cases hdvd : hpb ^ (L + 1) ∣ m
    · -- exact level boundary: nothing pending, skip this level
      obtain ⟨tm, htm⟩ := hdvd
      have hdvdL : hpb ^ L ∣ m := ⟨hpb * tm, by rw [htm, Nat.pow_succ]; ring⟩
      have hdivL : m / hpb ^ L = hpb * tm := by
        rw [htm, Nat.pow_succ, Nat.mul_assoc, Nat.mul_div_cancel_left _ hpowL]
      have hdivL1 : m / hpb ^ (L + 1) = tm := by
        rw [htm, Nat.mul_div_cancel_left _ hpowL1]
      have hA : DIV_ROUND_UP m (hpb ^ L) - hpb * (m / hpb ^ (L + 1)) = 0 := by
        rw [div_round_up_of_dvd hpowL hdvdL, hdivL, hdivL1]
        omega
      have hlen0 : (getBuf bufs (L + 1)).length = 0 := by
        rw [hcurr, hA, Nat.zero_mul]
      rw [if_neg (by omega)]
      apply ihh (L + 1) bufs (by omega) (by omega)
      refine ⟨hlen, ?_, ?_, ?_, ?_⟩
      · intro j hj
        rcases Nat.lt_or_ge j L with h | h
        · exact hzero j h
        · have hjL : j = L := by omega
          rw [hjL]
          exact hlen0
      · -- the (L+1) current clause
        have hDR : DIV_ROUND_UP m (hpb ^ (L + 1)) = m / hpb ^ (L + 1) :=
          div_round_up_of_dvd hpowL1 ⟨tm, htm⟩
        by_cases hL1 : L + 1 < NL
        · rw [hup (L + 1) (by omega) hL1, hDR, hmodid, hdd2]
        · have hL1N : L + 1 = NL := by omega
          have hroot0 : m / hpb ^ (NL + 1) = 0 := by
            apply Nat.div_eq_of_lt
            have hp := @Nat.pow_pos hpb NL (show 0 < hpb by omega)
            have h7 : hpb ^ NL * 2 ≤ hpb ^ NL * hpb := Nat.mul_le_mul_left _ h2
            rw [Nat.pow_succ]
            omega
        -- fill target using the root clause
          rw [hL1N] at hDR ⊢
          rw [hroot hLN, hDR, hroot0, Nat.mul_zero, Nat.sub_zero]
      · intro j hj1 hj2
        exact hup j (by omega) hj2
      · intro h
        exact hroot hLN
    · -- pending digests: flush this level upward
      have hA1 : 1 ≤ DIV_ROUND_UP m (hpb ^ L) - hpb * (m / hpb ^ (L + 1)) := by
        by_cases hdvdL : hpb ^ L ∣ m
        · have hDR : DIV_ROUND_UP m (hpb ^ L) = m / hpb ^ L :=
            div_round_up_of_dvd hpowL hdvdL
          have hmne : m / hpb ^ L % hpb ≠ 0 := by
            intro h0
            apply hdvd
            have hq : hpb ∣ m / hpb ^ L := Nat.dvd_of_mod_eq_zero h0
            obtain ⟨q, hq⟩ := hq
            obtain ⟨w, hw⟩ := hdvdL
            refine ⟨q, ?_⟩
            rw [hw, Nat.mul_div_cancel_left _ hpowL] at hq
            rw [hw, hq, Nat.pow_succ]
            ring
          have h5 := Nat.div_add_mod (m / hpb ^ L) hpb
          have h6 : m / hpb ^ L % hpb < hpb := Nat.mod_lt _ (by omega)
          rw [hDR, hdd1]
          omega
        · have hDR : DIV_ROUND_UP m (hpb ^ L) = m / hpb ^ L + 1 :=
            div_round_up_of_not_dvd hpowL hdvdL
          rw [hDR]
          omega
      rw [if_pos (by rw [hcurr]; intro h0; simp at h0; rcases h0 with h0 | h0 <;> omega)]
      -- run hash_one_block at index L + 1
      simp only [hash_one_block]
      set cur := getBuf bufs (L + 1) with hcur
      set block := cur ++ List.replicate (bs - cur.length) 0 with hblock
      set H := alg.hashFull (salt ++ block) with hH
      set next := getBuf bufs (L + 2) ++ H with hnext
      set bufs1 := (bufs.set (L + 1) []).set (L + 2) next with hbufs1
      have lenH : H.length = ds := halg _
      have hE1 : FlushInv ds hpb NL m (L + 1) bufs1 := by
        have hDR1 : DIV_ROUND_UP m (hpb ^ (L + 1)) = m / hpb ^ (L + 1) + 1 :=
          div_round_up_of_not_dvd hpowL1 hdvd
        refine ⟨by rw [hbufs1, List.length_set, List.length_set, hlen],
          ?_, ?_, ?_, ?_⟩
        · intro j hj
          rcases Nat.lt_or_ge j L with h | h
          · rw [hbufs1, getBuf_set2_ne _ _ (by omega) (by omega)]
            exact hzero j h
          · have hjL : j = L := by omega
            rw [hbufs1, hjL, getBuf_set2_fst _ _ (by omega) (by omega)]
            rfl
        · -- new current clause at L + 1
          rw [hbufs1, getBuf_set2_snd _ _ (by omega), hnext,
            List.length_append, lenH]
          by_cases hL1 : L + 1 < NL
          · rw [hup (L + 1) (by omega) hL1, hmodid, hdd2, hDR1]
            have hle : hpb * (m / hpb ^ (L + 1) / hpb) ≤ m / hpb ^ (L + 1) := by
              have h5 := Nat.div_add_mod (m / hpb ^ (L + 1)) hpb
              omega
            have h8 : m / hpb ^ (L + 1) + 1 - hpb * (m / hpb ^ (L + 1) / hpb) =
                m / hpb ^ (L + 1) - hpb * (m / hpb ^ (L + 1) / hpb) + 1 := by
              omega
            rw [h8, Nat.add_mul, Nat.one_mul]
          · have hL1N : L + 1 = NL := by omega
            have hroot0 : m / hpb ^ (NL + 1) = 0 := by
              apply Nat.div_eq_of_lt
              have hp := @Nat.pow_pos hpb NL (show 0 < hpb by omega)
              have h7 : hpb ^ NL * 2 ≤ hpb ^ NL * hpb :=
                Nat.mul_le_mul_left _ h2
              rw [Nat.pow_succ]
              omega
            rw [hL1N] at hDR1
            have h9 : L + 2 = NL + 1 := by omega
            rw [h9, hL1N, hroot hLN, hDR1, hroot0, Nat.mul_zero, Nat.sub_zero,
              Nat.add_mul, Nat.one_mul]
        · intro j hj1 hj2
          rw [hbufs1, getBuf_set2_ne _ _ (by omega) (by omega)]
          exact hup j (by omega) hj2
        · intro hL1
          rw [hbufs1, getBuf_set2_ne _ _ (by omega) (by omega)]
          exact hroot hLN
      obtain ⟨bufs2, evs2, hrun2, hinv2, hsteps2⟩ :=
        ihh (L + 1) bufs1 (by omega) (by omega) hE1
      refine ⟨bufs2,
        [Event.ctxInit, Event.update salt, Event.update block,
          Event.ctxFinal] ++ evs2, ?_, hinv2,
        stepEvents_append (stepEvents_group salt block) hsteps2⟩
      dsimp only
      rw [hrun2]

/-! ## compute_root_hash on valid parameters -/

theorem blockList_length (content : List Nat) (fs bs : Nat) :
    (blockList content fs bs).length = DIV_ROUND_UP fs bs := by
  rw [blockList, List.length_map, List.length_range]

theorem compute_root_hash_ok {alg : fsverity_hash_alg} {bs fs NL : Nat}
    (content salt : List Nat) (ss : Nat)
    (halg : HashAlgOK alg) (hds : 0 < alg.digest_size)
    (hdvd : alg.digest_size ∣ bs) (h2 : 2 ≤ bs / alg.digest_size)
    (hfs : 0 < fs) (hcont : content.length = fs)
    (hlev : computeNumLevels (bs / alg.digest_size) (DIV_ROUND_UP fs bs) =
      .ok NL)
    (hpow : DIV_ROUND_UP fs bs ≤ (bs / alg.digest_size) ^ NL) :
    ∃ root evs,
      compute_root_hash alg content fs bs salt ss = .ok root evs ∧
      root.length = alg.digest_size ∧
      readsOf evs = (List.range (DIV_ROUND_UP fs bs)).map
        (fun i => (i * bs, min bs (fs - i * bs))) ∧
      SaltPairs (padded_salt alg salt ss) (updatesOf evs) := by
  set ds := alg.digest_size with hdsdef
  set hpb := bs / ds with hhpb
  have hbs : bs = hpb * ds := by
    rw [hhpb, Nat.div_mul_cancel hdvd]
  have hbspos : 0 < bs := by
    rw [hbs]
    exact Nat.mul_pos (by omega) hds
  set m := DIV_ROUND_UP fs bs with hm
  have hm1 : 1 ≤ m := div_round_up_pos hfs hbspos
  have hpowNL1 : m < hpb ^ (NL + 1) := by
    have hp := @Nat.pow_pos hpb NL (show 0 < hpb by omega)
    have h7 : hpb ^ NL * 2 ≤ hpb ^ NL * hpb := Nat.mul_le_mul_left _ h2
    rw [Nat.pow_succ]
    omega
  -- the streaming loop
  have hinv0 : StreamInv ds hpb NL 0 (List.replicate (NL + 2) []) := by
    refine ⟨List.length_replicate _ _, getBuf_replicate _ _, ?_, ?_⟩
    · intro L hL
      rw [getBuf_replicate, Nat.zero_div, Nat.zero_mod, Nat.zero_mul]
      rfl
    · rw [getBuf_replicate, Nat.zero_div, Nat.zero_mul]
      rfl
  have hlens : ∀ b ∈ blockList content fs bs, (b.2.2 : List Nat).length ≤ bs := by
    intro b hb
    rw [blockList, List.mem_map] at hb
    obtain ⟨i, _, rfl⟩ := hb
    simp only [List.length_take]
    omega
  obtain ⟨bufs2, evs, hrun, hinv, hreads, hupd⟩ :=
    streamLoop_carry (padded_salt alg salt ss) halg hds hbs h2
      (blockList content fs bs) 0 (List.replicate (NL + 2) []) hinv0
      (by rw [blockList_length]; omega) hlens
  rw [blockList_length, ← hm, Nat.zero_add] at hinv
  -- the flush phase
  have hflushinv : FlushInv ds hpb NL m 0 bufs2 := by
    obtain ⟨hlen, hzero, hdig, hroot⟩ := hinv
    refine ⟨hlen, fun j hj => absurd hj (by omega), ?_, ?_, fun _ => hroot⟩
    · by_cases hNL0 : 0 < NL
      · rw [hdig 0 hNL0]
        have hid : m / hpb ^ 0 % hpb = DIV_ROUND_UP m (hpb ^ 0) -
            hpb * (m / hpb ^ (0 + 1)) := by
          rw [pow_zero, div_round_up_one, Nat.div_one, pow_one]
          have h5 := Nat.div_add_mod m hpb
          omega
        rw [hid]
      · have hNL : NL = 0 := by omega
        rw [hNL] at hroot
        rw [hroot]
        have hid : m / hpb ^ 0 = DIV_ROUND_UP m (hpb ^ 0) -
            hpb * (m / hpb ^ (0 + 1)) := by
          rw [pow_zero, div_round_up_one, Nat.div_one, pow_one]
          have h5 := Nat.div_add_mod m hpb
          have h6 : m < hpb := by
            have h8 := hpowNL1
            rw [hNL, pow_one] at h8
            exact h8
          rw [Nat.div_eq_of_lt h6]
          omega
        rw [hid]
    · intro j hj1 hj2
      exact hdig j hj2
  have hidx : (List.range NL).map (fun L => L + 1) = List.range' 1 NL := by
    rw [List.range'_eq_map_range]
    exact List.map_congr_left fun x _ => by omega
  obtain ⟨bufs3, evs2, hrun2, hinv2, hsteps2⟩ :=
    flushLoop_carry (padded_salt alg salt ss) halg hds h2
      hpow NL 0 bufs2 (by omega) (by omega)
      hflushinv
  obtain ⟨hlen3, hzero3, hcurr3, hup3, hroot3⟩ := hinv2
  have hrootlen : (getBuf bufs3 (NL + 1)).length = ds := by
    rw [hcurr3, div_round_up_eq_one hm1 hpow,
      Nat.div_eq_of_lt hpowNL1, Nat.mul_zero, Nat.sub_zero, Nat.one_mul]
  refine ⟨getBuf bufs3 (NL + 1), evs ++ evs2, ?_, hrootlen, ?_, ?_⟩
  · rw [compute_root_hash, if_neg (by omega), ← hdsdef, ← hhpb, ← hm, hlev]
    dsimp only
    rw [hrun]
    dsimp only
    rw [hidx, hrun2]
    dsimp only
    rw [if_neg (by omega)]
  · rw [readsOf_append, hreads, stepEvents_reads hsteps2, List.append_nil,
      blockList, List.map_map]
    rfl
  · rw [updatesOf_append]
    exact saltPairs_append hupd (stepEvents_updates hsteps2)

/-! ## Validation, registry and descriptor facts -/

theorem is_power_of_2_spec {n : Nat} (h : is_power_of_2 n = true) :
    n ≠ 0 ∧ n = 2 ^ ilog2 n := by
  rw [is_power_of_2, Bool.and_eq_true, bne_iff_ne, beq_iff_eq] at h
  exact h

theorem pad_take {l : List Nat} {n : Nat} (h : l.length ≤ n) :
    (l ++ List.replicate n 0).take n =
      l ++ List.replicate (n - l.length) 0 := by
  rw [List.take_append_eq_append_take, List.take_of_length_le h,
    List.take_replicate]
  have hmin : (n - l.length) ⊓ n = n - l.length := by omega
  rw [hmin]

theorem descriptor_eq {ha bs ss fs : Nat} {root saltp : List Nat}
    (hroot : root.length ≤ 64) (hss : ss ≤ 32) (hha : ha < 256)
    (hbs : ilog2 bs < 256) :
    fsverity_descriptor_bytes ha bs ss fs root saltp =
      spec_descriptor_bytes ha bs ss fs root (saltp.take ss) := by
  rw [fsverity_descriptor_bytes, spec_descriptor_bytes,
    Nat.mod_eq_of_lt hha, Nat.mod_eq_of_lt hbs,
    Nat.mod_eq_of_lt (show ss < 256 by omega), pad_take hroot,
    pad_take (show (saltp.take ss).length ≤ 32 by
      rw [List.length_take]; omega)]

theorem spec_descriptor_length {ha bs ss fs : Nat} {root salt : List Nat}
    (hroot : root.length ≤ 64) (hsalt : salt.length ≤ 32) :
    (spec_descriptor_bytes ha bs ss fs root salt).length = 256 := by
  simp [spec_descriptor_bytes, le32, le64]
  omega

theorem find_alg_cases {h256 h512 : List Nat → List Nat} {num : Nat}
    {alg : fsverity_hash_alg}
    (h : libfsverity_find_hash_alg_by_num h256 h512 num = some alg) :
    (num = 1 ∧ alg = ⟨32, 64, h256⟩) ∨ (num = 2 ∧ alg = ⟨64, 128, h512⟩) := by
  rw [libfsverity_find_hash_alg_by_num] at h
  by_cases h1 : num = 1
  · rw [if_pos h1] at h
    injection h with h
    exact Or.inl ⟨h1, h.symm⟩
  · rw [if_neg h1] at h
    by_cases hn2 : num = 2
    · rw [if_pos hn2] at h
      injection h with h
      exact Or.inr ⟨hn2, h.symm⟩
    · rw [if_neg hn2] at h
      exact absurd h (by simp)

theorem computeNumLevels_ok_pow {hpb blocks n : Nat} (h1 : 1 ≤ hpb)
    (h : computeNumLevels hpb blocks = .ok n) : blocks ≤ hpb ^ n := by
  obtain ⟨mm, hmm, hp⟩ := numLevelsAux_ok_pow h1 66 blocks 0 n h
  have hmn : mm = n := by omega
  rwa [hmn] at hp

theorem computeNumLevels_valid {hpb blocks : Nat} (h2 : 2 ≤ hpb)
    (hblocks : blocks ≤ 2 ^ 64) :
    ∃ NL, computeNumLevels hpb blocks = .ok NL ∧
      NL ≤ FS_VERITY_MAX_LEVELS ∧ blocks ≤ hpb ^ NL := by
  have hb2 : blocks ≤ hpb ^ (FS_VERITY_MAX_LEVELS - 0) := by
    calc blocks ≤ 2 ^ 64 := hblocks
    _ ≤ hpb ^ 64 := Nat.pow_le_pow_left h2 64
    _ = hpb ^ (FS_VERITY_MAX_LEVELS - 0) := by rw [FS_VERITY_MAX_LEVELS]
  obtain ⟨n, hok, hn⟩ := numLevelsAux_exists_ok h2 66 blocks 0 hb2
    (by rw [FS_VERITY_MAX_LEVELS]; omega) (by omega)
  exact ⟨n, hok, hn, computeNumLevels_ok_pow (by omega) hok⟩

/-! ## Success shape of the public entry point -/

theorem compute_root_hash_ok_length {alg : fsverity_hash_alg}
    {content : List Nat} {fs bs : Nat} {salt : List Nat} {ss : Nat}
    {root : List Nat} {evs : List Event}
    (h : compute_root_hash alg content fs bs salt ss = .ok root evs) :
    root.length = alg.digest_size := by
  rw [compute_root_hash] at h
  split at h
  · injection h with h1 h2
    rw [← h1, List.length_replicate]
  · split at h
    · exact absurd h (by simp)
    · exact absurd h (by simp)
    · split at h
      · exact absurd h (by simp)
      · split at h
        · split at h
          · exact absurd h (by simp)
          · injection h with h1 h2
            rename_i hcond
            rw [← h1]
            omega

theorem compute_digest_ok_shape {h256 h512 : List Nat → List Nat}
    {rd dr : Bool} {p : libfsverity_merkle_tree_params}
    {content : List Nat} {d : libfsverity_digest} {tr : List Event}
    (hrun : libfsverity_compute_digest h256 h512 rd (some p) dr content =
      .ok d tr) :
    ∃ alg root,
      libfsverity_find_hash_alg_by_num h256 h512 p.hash_algorithm =
        some alg ∧
      compute_root_hash alg content p.file_size p.block_size
        (p.salt.getD []) p.salt_size = .ok root tr ∧
      p.version = 1 ∧ is_power_of_2 p.block_size = true ∧
      p.salt_size ≤ 32 ∧
      d = ⟨p.hash_algorithm % 65536, alg.digest_size,
           alg.hashFull (fsverity_descriptor_bytes p.hash_algorithm
             p.block_size p.salt_size p.file_size root (p.salt.getD []))⟩ := by
  rw [libfsverity_compute_digest] at hrun
  split at hrun
  · exact absurd hrun (by simp)
  · split at hrun
    · exact absurd hrun (by simp)
    · split at hrun
      · exact absurd hrun (by simp)
      · split at hrun
        · exact absurd hrun (by simp)
        · split at hrun
          · exact absurd hrun (by simp)
          · split at hrun
            · exact absurd hrun (by simp)
            · split at hrun
              · exact absurd hrun (by simp)
              · split at hrun
                · exact absurd hrun (by simp)
                · exact absurd hrun (by simp)
                · rename_i hout hver hpow2 hss hsalt hres x1 alg hfind
                    x2 root tr2 hroot
                  injection hrun with h1 h2
                  rw [h2] at hroot
                  exact ⟨alg, root, hfind, hroot, by omega,
                    by simpa using hpow2, by omega, h1.symm⟩

/-! # The claims -/

/-- Claim C1: for every successful call to `libfsverity_compute_digest`,
the returned measurement is a single hash, with the resolved algorithm,
of the exact 256-byte descriptor whose fields are version 1, the
algorithm id, log2 of the block size, the salt size, `sig_size = 0`,
the file size in little-endian, the Merkle root zero-padded right to 64
bytes, the salt zero-padded right to 32 bytes, and 144 reserved zero
bytes; no signature trailer is part of the hashed bytes (the hashed
descriptor is exactly 256 bytes long). -/
theorem claim_C1 (h256 h512 : List Nat → List Nat) (rd dr : Bool)
    (p : libfsverity_merkle_tree_params) (content : List Nat)
    (d : libfsverity_digest) (tr : List Event)
    (hbs32 : p.block_size < 2 ^ 32)
    (hrun : libfsverity_compute_digest h256 h512 rd (some p) dr content =
      .ok d tr) :
    ∃ alg root,
      libfsverity_find_hash_alg_by_num h256 h512 p.hash_algorithm =
        some alg ∧
      compute_root_hash alg content p.file_size p.block_size
        (p.salt.getD []) p.salt_size = .ok root tr ∧
      root.length = alg.digest_size ∧
      d.digest = alg.hashFull (spec_descriptor_bytes p.hash_algorithm
        p.block_size p.salt_size p.file_size root
        ((p.salt.getD []).take p.salt_size)) ∧
      (spec_descriptor_bytes p.hash_algorithm p.block_size p.salt_size
        p.file_size root ((p.salt.getD []).take p.salt_size)).length =
        256 := by
  obtain ⟨alg, root, hfind, hroot, hver, hpow2, hss, hd⟩ :=
    compute_digest_ok_shape hrun
  have hrlen : root.length = alg.digest_size :=
    compute_root_hash_ok_length hroot
  have hds64 : alg.digest_size = 32 ∨ alg.digest_size = 64 := by
    rcases find_alg_cases hfind with ⟨_, rfl⟩ | ⟨_, rfl⟩
    · exact Or.inl rfl
    · exact Or.inr rfl
  have hha : p.hash_algorithm < 256 := by
    rcases find_alg_cases hfind with ⟨h1, _⟩ | ⟨h1, _⟩ <;> omega
  have hlog : ilog2 p.block_size < 256 := by
    have hbs2 : p.block_size = 2 ^ ilog2 p.block_size :=
      (is_power_of_2_spec hpow2).2
    have hlt : 2 ^ ilog2 p.block_size < 2 ^ 32 := by
      rw [← hbs2]
      exact hbs32
    have := (Nat.pow_lt_pow_iff_right (show 1 < 2 by omega)).1 hlt
    omega
  have hdesc := @descriptor_eq p.hash_algorithm p.block_size p.salt_size
    p.file_size root (p.salt.getD []) (by omega) hss hha hlog
  refine ⟨alg, root, hfind, hroot, hrlen, ?_, ?_⟩
  · rw [hd]
    dsimp only
    rw [hdesc]
  · exact spec_descriptor_length (by omega) (by rw [List.length_take]; omega)

set_option maxRecDepth 10000 in
/-- Witness for C1 at a concrete successful call: SHA-256 stand-in,
block size 64, the 3-byte file `[9, 8, 7]`. -/
theorem claim_C1_witness :
    ∃ alg root,
      libfsverity_find_hash_alg_by_num toy256 toy512 1 = some alg ∧
      compute_root_hash alg [9, 8, 7] 3 64 [] 0 = .ok root
        [.read 0 3, .ctxInit, .update [],
         .update ([9, 8, 7] ++ List.replicate 61 0), .ctxFinal] ∧
      root.length = alg.digest_size ∧
      List.replicate 32 11 =
        alg.hashFull (spec_descriptor_bytes 1 64 0 3 root []) ∧
      (spec_descriptor_bytes 1 64 0 3 root []).length = 256 := by
  apply claim_C1 toy256 toy512 true true ⟨1, 1, 64, 0, none, 3, []⟩
    [9, 8, 7] ⟨1, 32, List.replicate 32 11⟩ _
    (by decide) (by decide)

/-- Claim C2: one invocation of `hash_one_block` on a buffer with
`filled ≤ block_size` hashes the buffer zero-filled from `filled` to
`block_size` (prefixed by the padded salt), appends the digest to the
next buffer at its fill mark (incrementing that fill mark by
`digest_size`), resets the current buffer fill mark to 0, and returns
true iff the next buffer, with its new fill mark, has less than
`digest_size` bytes of room. -/
theorem claim_C2 (alg : fsverity_hash_alg) (block_size : Nat)
    (salt : List Nat) (bufs : List (List Nat)) (i : Nat)
    (halg : HashAlgOK alg)
    (hfill : (getBuf bufs i).length ≤ block_size)
    (hi : i + 1 < bufs.length) :
    (getBuf bufs i ++
      List.replicate (block_size - (getBuf bufs i).length) 0).length =
        block_size ∧
    getBuf (hash_one_block alg block_size salt bufs i).1 (i + 1) =
      getBuf bufs (i + 1) ++ alg.hashFull (salt ++ (getBuf bufs i ++
        List.replicate (block_size - (getBuf bufs i).length) 0)) ∧
    (getBuf (hash_one_block alg block_size salt bufs i).1 (i + 1)).length =
      (getBuf bufs (i + 1)).length + alg.digest_size ∧
    getBuf (hash_one_block alg block_size salt bufs i).1 i = [] ∧
    ((hash_one_block alg block_size salt bufs i).2.1 = true ↔
      block_size <
        (getBuf (hash_one_block alg block_size salt bufs i).1 (i + 1)).length
          + alg.digest_size) := by
  simp only [hash_one_block]
  have hnext : getBuf ((bufs.set i []).set (i + 1)
      (getBuf bufs (i + 1) ++ alg.hashFull (salt ++ (getBuf bufs i ++
        List.replicate (block_size - (getBuf bufs i).length) 0)))) (i + 1) =
      getBuf bufs (i + 1) ++ alg.hashFull (salt ++ (getBuf bufs i ++
        List.replicate (block_size - (getBuf bufs i).length) 0)) :=
    getBuf_set2_snd _ _ (by omega)
  refine ⟨?_, hnext, ?_, ?_, ?_⟩
  · rw [List.length_append, List.length_replicate]
    omega
  · rw [hnext, List.length_append, halg]
  · exact getBuf_set2_fst _ _ (by omega) (by omega)
  · rw [hnext, decide_eq_true_eq, List.length_append, halg]

/-- Witness for C2: SHA-256 stand-in, block size 64, a 3-buffer stack
with 2 data bytes pending. -/
theorem claim_C2_witness :
    (getBuf [[1, 2], [], []] 0 ++
      List.replicate (64 - (getBuf [[1, 2], [], []] 0).length) 0).length =
        64 ∧
    getBuf (hash_one_block ⟨32, 64, toy256⟩ 64 [] [[1, 2], [], []] 0).1 1 =
      getBuf [[1, 2], [], []] 1 ++
        fsverity_hash_alg.hashFull ⟨32, 64, toy256⟩
          ([] ++ (getBuf [[1, 2], [], []] 0 ++
            List.replicate (64 - (getBuf [[1, 2], [], []] 0).length) 0)) ∧
    (getBuf (hash_one_block ⟨32, 64, toy256⟩ 64 [] [[1, 2], [], []] 0).1
      1).length = (getBuf [[1, 2], [], []] 1).length + 32 ∧
    getBuf (hash_one_block ⟨32, 64, toy256⟩ 64 [] [[1, 2], [], []] 0).1 0 =
      [] ∧
    ((hash_one_block ⟨32, 64, toy256⟩ 64 [] [[1, 2], [], []] 0).2.1 = true ↔
      64 < (getBuf (hash_one_block ⟨32, 64, toy256⟩ 64 []
        [[1, 2], [], []] 0).1 1).length + 32) :=
  claim_C2 ⟨32, 64, toy256⟩ 64 [] [[1, 2], [], []] 0
    (fun m => by simp [toy256]) (by decide) (by decide)

/-- Claim C3: for every nonzero file size (and a well-defined
`hashes_per_block ≥ 1`), the computed `num_levels` is exactly the
count of iterations of the spec loop `blocks ← ceil(blocks /
hashes_per_block) while blocks > 1`, starting from
`ceil(file_size / block_size)` blocks: after `num_levels` iterations at
most one block remains and every earlier iterate exceeds one; and
whenever that count would exceed `FS_VERITY_MAX_LEVELS = 64` (every
iterate up to 64 still exceeds one block), `compute_root_hash` fails
with `-EINVAL`. -/
theorem claim_C3 (alg : fsverity_hash_alg) (content salt : List Nat)
    (fs bs ss : Nat) (hfs : 0 < fs)
    (hhpb : 1 ≤ bs / alg.digest_size) :
    (∀ n, computeNumLevels (bs / alg.digest_size) (DIV_ROUND_UP fs bs) =
        .ok n →
      n ≤ FS_VERITY_MAX_LEVELS ∧
      specBlocksAfter (bs / alg.digest_size) (DIV_ROUND_UP fs bs) n ≤ 1 ∧
      ∀ j, j < n →
        1 < specBlocksAfter (bs / alg.digest_size) (DIV_ROUND_UP fs bs) j) ∧
    ((∀ j, j ≤ FS_VERITY_MAX_LEVELS →
        1 < specBlocksAfter (bs / alg.digest_size) (DIV_ROUND_UP fs bs) j) →
      compute_root_hash alg content fs bs salt ss = .err (-22) []) := by
  constructor
  · intro n hok
    obtain ⟨m, hm, hle, hgt⟩ := numLevelsAux_ok_iterate 66
      (DIV_ROUND_UP fs bs) 0 n hok
    have hmn : m = n := by omega
    subst hmn
    exact ⟨numLevelsAux_ok_bound 66 (DIV_ROUND_UP fs bs) 0 m
      (by rw [FS_VERITY_MAX_LEVELS]; omega) hok, hle, hgt⟩
  · intro hbig
    have heinval : computeNumLevels (bs / alg.digest_size)
        (DIV_ROUND_UP fs bs) = .einval := by
      rcases hcase : computeNumLevels (bs / alg.digest_size)
          (DIV_ROUND_UP fs bs) with n | _ | _
      · exfalso
        obtain ⟨m, hm, hle, hgt⟩ := numLevelsAux_ok_iterate 66
          (DIV_ROUND_UP fs bs) 0 n hcase
        have hb := numLevelsAux_ok_bound 66 (DIV_ROUND_UP fs bs) 0 n
          (by rw [FS_VERITY_MAX_LEVELS]; omega) hcase
        have := hbig m (by omega)
        omega
      · rfl
      · exact absurd hcase (numLevelsAux_ne_undef hhpb 66 _ 0
          (by rw [FS_VERITY_MAX_LEVELS]; omega) (by omega))
    rw [compute_root_hash, if_neg (by omega), heinval]

/-- Witness for C3: SHA-256 stand-in, block size 64, a 5-byte file. -/
theorem claim_C3_witness :
    (∀ n, computeNumLevels (64 / (32 : Nat)) (DIV_ROUND_UP 5 64) = .ok n →
      n ≤ FS_VERITY_MAX_LEVELS ∧
      specBlocksAfter (64 / 32) (DIV_ROUND_UP 5 64) n ≤ 1 ∧
      ∀ j, j < n → 1 < specBlocksAfter (64 / 32) (DIV_ROUND_UP 5 64) j) ∧
    ((∀ j, j ≤ FS_VERITY_MAX_LEVELS →
        1 < specBlocksAfter (64 / 32) (DIV_ROUND_UP 5 64) j) →
      compute_root_hash ⟨32, 64, toy256⟩ [1, 2, 3, 4, 5] 5 64 [] 0 =
        .err (-22) []) :=
  claim_C3 ⟨32, 64, toy256⟩ [1, 2, 3, 4, 5] [] 5 64 0 (by decide) (by decide)

/-- Claim C4: for every otherwise-valid parameter set with
`file_size = 0`, the root hash is exactly `digest_size` zero bytes, the
event trace is empty (the read callback is never invoked, and no level
is ever hashed), the 64-byte root field of the descriptor is all zero,
and the final digest is the hash of the descriptor with that all-zero
root. -/
theorem claim_C4 (h256 h512 : List Nat → List Nat)
    (p : libfsverity_merkle_tree_params) (content : List Nat)
    (alg : fsverity_hash_alg)
    (hfs : p.file_size = 0) (hver : p.version = 1)
    (hpow2 : is_power_of_2 p.block_size = true) (hss : p.salt_size ≤ 32)
    (hsalt : p.salt_size ≠ 0 → p.salt ≠ none)
    (hres : (p.reserved.all fun r => r == 0) = true)
    (hfind : libfsverity_find_hash_alg_by_num h256 h512 p.hash_algorithm =
      some alg)
    (hbs32 : p.block_size < 2 ^ 32) :
    compute_root_hash alg content p.file_size p.block_size
      (p.salt.getD []) p.salt_size =
      .ok (List.replicate alg.digest_size 0) [] ∧
    List.replicate alg.digest_size (0 : Nat) ++
      List.replicate (64 - alg.digest_size) 0 = List.replicate 64 0 ∧
    libfsverity_compute_digest h256 h512 true (some p) true content =
      .ok ⟨p.hash_algorithm % 65536, alg.digest_size,
        alg.hashFull (spec_descriptor_bytes p.hash_algorithm p.block_size
          p.salt_size 0 (List.replicate alg.digest_size 0)
          ((p.salt.getD []).take p.salt_size))⟩ [] := by
  have hroot : compute_root_hash alg content p.file_size p.block_size
      (p.salt.getD []) p.salt_size =
      .ok (List.replicate alg.digest_size 0) [] := by
    rw [hfs, compute_root_hash, if_pos rfl]
  have hds64 : alg.digest_size = 32 ∨ alg.digest_size = 64 := by
    rcases find_alg_cases hfind with ⟨_, rfl⟩ | ⟨_, rfl⟩
    · exact Or.inl rfl
    · exact Or.inr rfl
  have hpad : List.replicate alg.digest_size (0 : Nat) ++
      List.replicate (64 - alg.digest_size) 0 = List.replicate 64 0 := by
    rw [← List.replicate_add]
    congr 1
    omega
  refine ⟨hroot, hpad, ?_⟩
  have hha : p.hash_algorithm < 256 := by
    rcases find_alg_cases hfind with ⟨h1, _⟩ | ⟨h1, _⟩ <;> omega
  have hlog : ilog2 p.block_size < 256 := by
    have hbs2 : p.block_size = 2 ^ ilog2 p.block_size :=
      (is_power_of_2_spec hpow2).2
    have hlt : 2 ^ ilog2 p.block_size < 2 ^ 32 := by
      rw [← hbs2]
      exact hbs32
    have := (Nat.pow_lt_pow_iff_right (show 1 < 2 by omega)).1 hlt
    omega
  rw [libfsverity_compute_digest,
    if_neg (by simp),
    if_neg (by omega),
    if_neg (by simp [hpow2]),
    if_neg (by omega),
    if_neg (by rintro ⟨ha, hb⟩; exact hsalt ha hb),
    if_neg (by simp [hres]),
    hfind]
  dsimp only
  rw [hroot]
  dsimp only
  rw [hfs, descriptor_eq (by rw [List.length_replicate]; omega) hss hha hlog]

set_option maxRecDepth 40000 in
/-- Witness for C4: SHA-256 stand-in, block size 4096, empty file. -/
theorem claim_C4_witness :
    compute_root_hash ⟨32, 64, toy256⟩ [] 0 4096 [] 0 =
      .ok (List.replicate 32 0) [] ∧
    List.replicate 32 (0 : Nat) ++ List.replicate (64 - 32) 0 =
      List.replicate 64 0 ∧
    libfsverity_compute_digest toy256 toy512 true
      (some ⟨1, 1, 4096, 0, none, 0, []⟩) true [] =
      .ok ⟨1, 32, toy256 (spec_descriptor_bytes 1 4096 0 0
        (List.replicate 32 0) [])⟩ [] :=
  claim_C4 toy256 toy512 ⟨1, 1, 4096, 0, none, 0, []⟩ [] ⟨32, 64, toy256⟩
    (by decide) (by decide) (by decide) (by decide)
    (fun h => absurd rfl h) (by decide) rfl (by decide)

/-- Claim C5: `libfsverity_compute_digest` validates its inputs in
exactly the source order, returning `-EINVAL` at the first failing
check with a distinct diagnostic for each: (1) the read callback, the
params pointer and the output pointer are non-null; (2) `version = 1`;
(3) `block_size` is a power of two; (4) `salt_size ≤ 32`; (5) a
nonzero `salt_size` requires a non-null salt; (6) all reserved words
are zero; (7) `hash_algorithm` resolves in the registry.  The last
conjunct checks the seven diagnostic strings are pairwise distinct. -/
theorem claim_C5 (h256 h512 : List Nat → List Nat) (rd : Bool)
    (params : Option libfsverity_merkle_tree_params) (dr : Bool)
    (content : List Nat) :
    ((rd = false ∨ params = none ∨ dr = false) →
      libfsverity_compute_digest h256 h512 rd params dr content =
        .err (-22) .missingParams) ∧
    (∀ p, params = some p → rd = true → dr = true →
      ((p.version ≠ 1 →
        libfsverity_compute_digest h256 h512 rd params dr content =
          .err (-22) .badVersion) ∧
       (p.version = 1 → is_power_of_2 p.block_size = false →
        libfsverity_compute_digest h256 h512 rd params dr content =
          .err (-22) .badBlockSize) ∧
       (p.version = 1 → is_power_of_2 p.block_size = true →
        p.salt_size > 32 →
        libfsverity_compute_digest h256 h512 rd params dr content =
          .err (-22) .badSaltSize) ∧
       (p.version = 1 → is_power_of_2 p.block_size = true →
        p.salt_size ≤ 32 → p.salt_size ≠ 0 → p.salt = none →
        libfsverity_compute_digest h256 h512 rd params dr content =
          .err (-22) .nullSalt) ∧
       (p.version = 1 → is_power_of_2 p.block_size = true →
        p.salt_size ≤ 32 → ¬(p.salt_size ≠ 0 ∧ p.salt = none) →
        (p.reserved.all fun r => r == 0) = false →
        libfsverity_compute_digest h256 h512 rd params dr content =
          .err (-22) .reservedSet) ∧
       (p.version = 1 → is_power_of_2 p.block_size = true →
        p.salt_size ≤ 32 → ¬(p.salt_size ≠ 0 ∧ p.salt = none) →
        (p.reserved.all fun r => r == 0) = true →
        libfsverity_find_hash_alg_by_num h256 h512 p.hash_algorithm =
          none →
        libfsverity_compute_digest h256 h512 rd params dr content =
          .err (-22) (.unknownAlg p.hash_algorithm)))) ∧
    List.Pairwise (· ≠ ·) [diagMsg .missingParams, diagMsg .badVersion,
      diagMsg .badBlockSize, diagMsg .badSaltSize, diagMsg .nullSalt,
      diagMsg .reservedSet, diagMsg (.unknownAlg 0)] := by
  refine ⟨?_, ?_, by simp [diagMsg]⟩
  · intro h
    rw [libfsverity_compute_digest.eq_def, if_pos h]
  · rintro p rfl rfl rfl
    have hout : ¬((true : Bool) = false ∨
        (some p : Option libfsverity_merkle_tree_params) = none ∨
        (true : Bool) = false) := by simp
    refine ⟨?_, ?_, ?_, ?_, ?_, ?_⟩
    · intro hver
      rw [libfsverity_compute_digest, if_neg hout, if_pos hver]
    · intro hver hpow
      rw [libfsverity_compute_digest, if_neg hout, if_neg (by omega),
        if_pos (by simp [hpow])]
    · intro hver hpow hss
      rw [libfsverity_compute_digest, if_neg hout, if_neg (by omega),
        if_neg (by simp [hpow]), if_pos hss]
    · intro hver hpow hss hssne hnull
      rw [libfsverity_compute_digest, if_neg hout, if_neg (by omega),
        if_neg (by simp [hpow]), if_neg (by omega),
        if_pos ⟨hssne, hnull⟩]
    · intro hver hpow hss hnull hres
      rw [libfsverity_compute_digest, if_neg hout, if_neg (by omega),
        if_neg (by simp [hpow]), if_neg (by omega), if_neg hnull,
        if_pos hres]
    · intro hver hpow hss hnull hres hfind
      rw [libfsverity_compute_digest, if_neg hout, if_neg (by omega),
        if_neg (by simp [hpow]), if_neg (by omega), if_neg hnull,
        if_neg (by simp [hres]), hfind]

/-- Witness for C5: a version-2 parameter set fails check (2) with the
version diagnostic; an unknown algorithm id 9 passes checks (1)-(6)
and fails check (7) with the unknown-algorithm diagnostic. -/
theorem claim_C5_witness :
    libfsverity_compute_digest toy256 toy512 true
      (some ⟨2, 1, 4096, 0, none, 0, []⟩) true [] =
      .err (-22) .badVersion ∧
    libfsverity_compute_digest toy256 toy512 true
      (some ⟨1, 9, 4096, 0, none, 0, []⟩) true [] =
      .err (-22) (.unknownAlg 9) :=
  ⟨((claim_C5 toy256 toy512 true (some ⟨2, 1, 4096, 0, none, 0, []⟩)
      true []).2.1 ⟨2, 1, 4096, 0, none, 0, []⟩ rfl rfl rfl).1
      (by decide),
   (((((claim_C5 toy256 toy512 true (some ⟨1, 9, 4096, 0, none, 0, []⟩)
      true []).2.1 ⟨1, 9, 4096, 0, none, 0, []⟩ rfl rfl rfl).2).2).2.2.2)
      rfl (by set_option maxRecDepth 40000 in decide) (by decide)
      (by simp) (by decide) rfl⟩

theorem valid_params_derive {h256 h512 : List Nat → List Nat} {num bs : Nat}
    {alg : fsverity_hash_alg}
    (h256ok : ∀ m, (h256 m).length = 32)
    (h512ok : ∀ m, (h512 m).length = 64)
    (hfind : libfsverity_find_hash_alg_by_num h256 h512 num = some alg)
    (hpow2 : is_power_of_2 bs = true)
    (h2ds : 2 * alg.digest_size ≤ bs) :
    HashAlgOK alg ∧ 0 < alg.digest_size ∧ alg.digest_size ∣ bs ∧
      2 ≤ bs / alg.digest_size := by
  have hbs2 : bs = 2 ^ ilog2 bs := (is_power_of_2_spec hpow2).2
  have hdvd : ∀ b : Nat, alg.digest_size = 2 ^ b →
      2 ^ (b + 1) ≤ bs → alg.digest_size ∣ bs := by
    intro b hb hle
    rw [hbs2] at hle ⊢
    have hba : b + 1 ≤ ilog2 bs :=
      (Nat.pow_le_pow_iff_right (show 1 < 2 by omega)).1 hle
    rw [hb]
    exact pow_dvd_pow 2 (by omega)
  have hds : 0 < alg.digest_size := by
    rcases find_alg_cases hfind with ⟨_, rfl⟩ | ⟨_, rfl⟩ <;> simp
  have hdvd2 : alg.digest_size ∣ bs := by
    rcases find_alg_cases hfind with ⟨_, halg⟩ | ⟨_, halg⟩
    · refine hdvd 5 ?_ (by rw [halg] at h2ds; simp at h2ds; omega)
      rw [halg]
      rfl
    · refine hdvd 6 ?_ (by rw [halg] at h2ds; simp at h2ds; omega)
      rw [halg]
      rfl
  refine ⟨?_, hds, hdvd2, ?_⟩
  · rcases find_alg_cases hfind with ⟨_, rfl⟩ | ⟨_, rfl⟩
    · exact fun m => h256ok m
    · exact fun m => h512ok m
  · rw [Nat.le_div_iff_mul_le hds]
    omega

/-- Claim C9: for parameters satisfying the section-3 constraints (a
registered algorithm, a power-of-two block size at least twice the
digest size, a u64 file size) and a read callback that serves every
request, none of the internal guards fire: the 64-level overflow check,
the streaming-loop `level >= num_levels` check and the final
root-sink postcondition all pass, and `compute_root_hash` returns
success (0) with a root of `digest_size` bytes. -/
theorem claim_C9 (h256 h512 : List Nat → List Nat) (num : Nat)
    (alg : fsverity_hash_alg) (content salt : List Nat) (fs bs ss : Nat)
    (h256ok : ∀ m, (h256 m).length = 32)
    (h512ok : ∀ m, (h512 m).length = 64)
    (hfind : libfsverity_find_hash_alg_by_num h256 h512 num = some alg)
    (hpow2 : is_power_of_2 bs = true)
    (h2ds : 2 * alg.digest_size ≤ bs)
    (hfs64 : fs ≤ 2 ^ 64)
    (hcont : content.length = fs) :
    ∃ root evs, compute_root_hash alg content fs bs salt ss =
      .ok root evs ∧ root.length = alg.digest_size := by
  obtain ⟨halg, hds, hdvd, h2⟩ :=
    valid_params_derive h256ok h512ok hfind hpow2 h2ds
  by_cases hfs : fs = 0
  · refine ⟨List.replicate alg.digest_size 0, [], ?_, List.length_replicate _ _⟩
    rw [hfs, compute_root_hash, if_pos rfl]
  · have hbspos : 0 < bs := by
      have := Nat.div_mul_cancel hdvd
      omega
    have hblocks : DIV_ROUND_UP fs bs ≤ 2 ^ 64 :=
      le_trans (div_round_up_le_self fs hbspos) hfs64
    obtain ⟨NL, hok, hNL64, hpow⟩ := computeNumLevels_valid h2 hblocks
    obtain ⟨root, evs, hrun, hlen, _, _⟩ :=
      compute_root_hash_ok content salt ss halg hds hdvd h2
        (by omega) hcont hok hpow
    exact ⟨root, evs, hrun, hlen⟩

/-- Witness for C9: SHA-256 stand-in, block size 64, a 200-byte file
(four data blocks, two interior levels), a 2-byte salt. -/
theorem claim_C9_witness :
    ∃ root evs,
      compute_root_hash ⟨32, 64, toy256⟩ (List.replicate 200 5) 200 64
        [3, 1] 2 = .ok root evs ∧ root.length = 32 :=
  claim_C9 toy256 toy512 1 ⟨32, 64, toy256⟩ (List.replicate 200 5) [3, 1]
    200 64 2 (fun m => by simp [toy256]) (fun m => by simp [toy512])
    rfl (by decide) (by decide) (by norm_num)
    (List.length_replicate 200 5)

theorem streamInv_zero (ds hpb NL : Nat) :
    StreamInv ds hpb NL 0 (List.replicate (NL + 2) []) := by
  refine ⟨List.length_replicate _ _, getBuf_replicate _ _, ?_, ?_⟩
  · intro L hL
    rw [getBuf_replicate, Nat.zero_div, Nat.zero_mod, Nat.zero_mul]
    rfl
  · rw [getBuf_replicate, Nat.zero_div, Nat.zero_mul]
    rfl

/-- Claim C7: throughout the Merkle construction for valid parameters,
after any number `k` of data blocks every buffer at level >= 0
(including the root sink) has a fill mark that is a multiple of
`digest_size` and at most `block_size`; and for every nonempty file,
after the streaming loop and the flush phase the root sink holds
exactly `digest_size` bytes. -/
theorem claim_C7 (h256 h512 : List Nat → List Nat) (num : Nat)
    (alg : fsverity_hash_alg) (content salt : List Nat) (fs bs ss : Nat)
    (h256ok : ∀ m, (h256 m).length = 32)
    (h512ok : ∀ m, (h512 m).length = 64)
    (hfind : libfsverity_find_hash_alg_by_num h256 h512 num = some alg)
    (hpow2 : is_power_of_2 bs = true)
    (h2ds : 2 * alg.digest_size ≤ bs)
    (hfs : 0 < fs) (hfs64 : fs ≤ 2 ^ 64)
    (hcont : content.length = fs) :
    (∀ NL, computeNumLevels (bs / alg.digest_size) (DIV_ROUND_UP fs bs) =
        .ok NL →
      ∀ k, k ≤ DIV_ROUND_UP fs bs →
      ∃ bufs evs,
        streamLoop alg bs (padded_salt alg salt ss) NL
          ((blockList content fs bs).take k)
          (List.replicate (NL + 2) []) = (.ok bufs, evs) ∧
        ∀ i, 1 ≤ i → i ≤ NL + 1 →
          (getBuf bufs i).length % alg.digest_size = 0 ∧
          (getBuf bufs i).length ≤ bs) ∧
    (∃ root evs, compute_root_hash alg content fs bs salt ss =
      .ok root evs ∧ root.length = alg.digest_size) := by
  obtain ⟨halg, hds, hdvd, h2⟩ :=
    valid_params_derive h256ok h512ok hfind hpow2 h2ds
  have hbs : bs = bs / alg.digest_size * alg.digest_size :=
    (Nat.div_mul_cancel hdvd).symm
  have hbspos : 0 < bs := by omega
  constructor
  · intro NL hok k hk
    have hpow := computeNumLevels_ok_pow (by omega) hok
    have htklen : ((blockList content fs bs).take k).length = k := by
      rw [List.length_take, blockList_length]
      omega
    obtain ⟨bufs, evs, hrun, hinv, _, _⟩ :=
      streamLoop_carry (padded_salt alg salt ss) halg hds hbs h2
        ((blockList content fs bs).take k) 0 (List.replicate (NL + 2) [])
        (streamInv_zero _ _ _) (by rw [htklen]; omega)
        (by
          intro b hb
          have hmem := List.mem_of_mem_take hb
          rw [blockList, List.mem_map] at hmem
          obtain ⟨i, _, rfl⟩ := hmem
          simp only [List.length_take]
          omega)
    rw [htklen, Nat.zero_add] at hinv
    obtain ⟨hlen, hzero, hdig, hroot⟩ := hinv
    refine ⟨bufs, evs, hrun, ?_⟩
    intro i h1 h2i
    rcases Nat.lt_or_ge i (NL + 1) with hiN | hiN
    · have hi1 : i = (i - 1) + 1 := by omega
      rw [hi1, hdig (i - 1) (by omega)]
      constructor
      · exact Nat.mul_mod_left _ _
      · have hdiglt : k / (bs / alg.digest_size) ^ (i - 1) %
            (bs / alg.digest_size) ≤ bs / alg.digest_size :=
          le_of_lt (Nat.mod_lt _ (by omega))
        calc k / (bs / alg.digest_size) ^ (i - 1) %
            (bs / alg.digest_size) * alg.digest_size
            ≤ bs / alg.digest_size * alg.digest_size :=
              Nat.mul_le_mul_right _ hdiglt
        _ = bs := hbs.symm
    · have hiN1 : i = NL + 1 := by omega
      rw [hiN1, hroot]
      constructor
      · exact Nat.mul_mod_left _ _
      · have hk1 : k / (bs / alg.digest_size) ^ NL ≤ 1 := by
          calc k / (bs / alg.digest_size) ^ NL
              ≤ (bs / alg.digest_size) ^ NL / (bs / alg.digest_size) ^ NL :=
                Nat.div_le_div_right (by omega)
          _ = 1 := Nat.div_self (Nat.pow_pos (by omega))
        calc k / (bs / alg.digest_size) ^ NL * alg.digest_size
            ≤ 1 * alg.digest_size := Nat.mul_le_mul_right _ hk1
        _ ≤ bs := by omega
  · have hblocks : DIV_ROUND_UP fs bs ≤ 2 ^ 64 :=
      le_trans (div_round_up_le_self fs hbspos) hfs64
    obtain ⟨NL, hok, hNL64, hpow⟩ := computeNumLevels_valid h2 hblocks
    obtain ⟨root, evs, hrun, hlen, _, _⟩ :=
      compute_root_hash_ok content salt ss halg hds hdvd h2
        (by omega) hcont hok hpow
    exact ⟨root, evs, hrun, hlen⟩

/-- Witness for C7: SHA-256 stand-in, block size 64, a 200-byte file,
a 2-byte salt. -/
theorem claim_C7_witness :
    (∀ NL, computeNumLevels (64 / fsverity_hash_alg.digest_size
        ⟨32, 64, toy256⟩) (DIV_ROUND_UP 200 64) = .ok NL →
      ∀ k, k ≤ DIV_ROUND_UP 200 64 →
      ∃ bufs evs,
        streamLoop ⟨32, 64, toy256⟩ 64
          (padded_salt ⟨32, 64, toy256⟩ [3, 1] 2) NL
          ((blockList (List.replicate 200 5) 200 64).take k)
          (List.replicate (NL + 2) []) = (.ok bufs, evs) ∧
        ∀ i, 1 ≤ i → i ≤ NL + 1 →
          (getBuf bufs i).length % 32 = 0 ∧ (getBuf bufs i).length ≤ 64) ∧
    (∃ root evs, compute_root_hash ⟨32, 64, toy256⟩
      (List.replicate 200 5) 200 64 [3, 1] 2 = .ok root evs ∧
      root.length = 32) :=
  claim_C7 toy256 toy512 1 ⟨32, 64, toy256⟩ (List.replicate 200 5) [3, 1]
    200 64 2 (fun m => by simp [toy256]) (fun m => by simp [toy512])
    rfl (by decide) (by decide) (by decide) (by norm_num)
    (List.length_replicate 200 5)

/-- Claim C8: in one successful computation the read callback is
invoked once per block in strictly increasing file-offset order, the
i-th call requesting exactly `min(block_size, file_size - offset)`
bytes, never zero, for exactly `ceil(file_size / block_size)` calls in
total; and the hash-context update calls come in pairs, the padded
salt first and the block data second, one pair per block-hash step. -/
theorem claim_C8 (h256 h512 : List Nat → List Nat) (num : Nat)
    (alg : fsverity_hash_alg) (content salt : List Nat) (fs bs ss : Nat)
    (h256ok : ∀ m, (h256 m).length = 32)
    (h512ok : ∀ m, (h512 m).length = 64)
    (hfind : libfsverity_find_hash_alg_by_num h256 h512 num = some alg)
    (hpow2 : is_power_of_2 bs = true)
    (h2ds : 2 * alg.digest_size ≤ bs)
    (hfs64 : fs ≤ 2 ^ 64)
    (hcont : content.length = fs) :
    ∃ root evs, compute_root_hash alg content fs bs salt ss =
      .ok root evs ∧
      readsOf evs = (List.range (DIV_ROUND_UP fs bs)).map
        (fun i => (i * bs, min bs (fs - i * bs))) ∧
      (readsOf evs).length = DIV_ROUND_UP fs bs ∧
      List.Pairwise (fun a b : Nat × Nat => a.1 < b.1) (readsOf evs) ∧
      (∀ pr ∈ readsOf evs, 0 < pr.2) ∧
      SaltPairs (padded_salt alg salt ss) (updatesOf evs) := by
  obtain ⟨halg, hds, hdvd, h2⟩ :=
    valid_params_derive h256ok h512ok hfind hpow2 h2ds
  have hbspos : 0 < bs := by
    have := Nat.div_mul_cancel hdvd
    omega
  by_cases hfs : fs = 0
  · refine ⟨List.replicate alg.digest_size 0, [], ?_, ?_, ?_, ?_, ?_, ⟨[], rfl⟩⟩
    · rw [hfs, compute_root_hash, if_pos rfl]
    · rw [hfs]
      have hdr0 : DIV_ROUND_UP 0 bs = 0 := by
        rw [DIV_ROUND_UP, Nat.zero_add, Nat.div_eq_of_lt (by omega)]
      rw [hdr0]
      rfl
    · rw [hfs]
      have hdr0 : DIV_ROUND_UP 0 bs = 0 := by
        rw [DIV_ROUND_UP, Nat.zero_add, Nat.div_eq_of_lt (by omega)]
      rw [hdr0]
      rfl
    · exact List.Pairwise.nil
    · intro pr hpr
      exact absurd hpr (by simp [readsOf])
  · have hblocks : DIV_ROUND_UP fs bs ≤ 2 ^ 64 :=
      le_trans (div_round_up_le_self fs hbspos) hfs64
    obtain ⟨NL, hok, hNL64, hpow⟩ := computeNumLevels_valid h2 hblocks
    obtain ⟨root, evs, hrun, hlen, hreads, hupd⟩ :=
      compute_root_hash_ok content salt ss halg hds hdvd h2
        (by omega) hcont hok hpow
    refine ⟨root, evs, hrun, hreads, ?_, ?_, ?_, hupd⟩
    · rw [hreads, List.length_map, List.length_range]
    · rw [hreads]
      exact List.Pairwise.map _
        (fun a b hab => (Nat.mul_lt_mul_right hbspos).2 hab)
        (List.pairwise_lt_range _)
    · intro pr hpr
      rw [hreads, List.mem_map] at hpr
      obtain ⟨i, hi, rfl⟩ := hpr
      rw [List.mem_range] at hi
      have hnotle : ¬ (DIV_ROUND_UP fs bs ≤ i) := by omega
      rw [div_round_up_le_iff fs i hbspos] at hnotle
      simp only
      omega

/-- Witness for C8: SHA-256 stand-in, block size 64, a 200-byte file,
a 2-byte salt. -/
theorem claim_C8_witness :
    ∃ root evs, compute_root_hash ⟨32, 64, toy256⟩ (List.replicate 200 5)
      200 64 [3, 1] 2 = .ok root evs ∧
      readsOf evs = (List.range (DIV_ROUND_UP 200 64)).map
        (fun i => (i * 64, min 64 (200 - i * 64))) ∧
      (readsOf evs).length = DIV_ROUND_UP 200 64 ∧
      List.Pairwise (fun a b : Nat × Nat => a.1 < b.1) (readsOf evs) ∧
      (∀ pr ∈ readsOf evs, 0 < pr.2) ∧
      SaltPairs (padded_salt ⟨32, 64, toy256⟩ [3, 1] 2) (updatesOf evs) :=
  claim_C8 toy256 toy512 1 ⟨32, 64, toy256⟩ (List.replicate 200 5) [3, 1]
    200 64 2 (fun m => by simp [toy256]) (fun m => by simp [toy512])
    rfl (by decide) (by decide) (by norm_num)
    (List.length_replicate 200 5)


/-- With hashes_per_block = 1 the block-count loop never makes progress
(DIV_ROUND_UP blocks 1 = blocks), so for any starting count of at least
two blocks the level counter climbs past FS_VERITY_MAX_LEVELS and the
WARN_ON overflow guard returns -EINVAL. -/
theorem numLevelsAux_one :
    ∀ fuel acc blocks, 2 ≤ blocks → acc ≤ FS_VERITY_MAX_LEVELS →
      65 ≤ fuel + acc → numLevelsAux 1 fuel blocks acc = .einval := by
  intro fuel
  induction fuel with
  | zero =>
    intro acc blocks hb hacc hfuel
    rw [FS_VERITY_MAX_LEVELS] at hacc
    omega
  | succ fuel ih =>
    intro acc blocks hb hacc hfuel
    rw [numLevelsAux, if_pos (by omega)]
    by_cases hge : acc ≥ FS_VERITY_MAX_LEVELS
    · rw [if_pos hge]
    · rw [if_neg hge, if_neg (by omega), div_round_up_one]
      exact ih (acc + 1) blocks hb (by omega) (by omega)

/-- Top-level form of the hashes_per_block = 1 divergence: at least two
data blocks force the -EINVAL overflow guard. -/
theorem computeNumLevels_one {blocks : Nat} (h : 2 ≤ blocks) :
    computeNumLevels 1 blocks = .einval :=
  numLevelsAux_one 66 0 blocks h (by rw [FS_VERITY_MAX_LEVELS]; omega)
    (by omega)

/-- One data block needs no interior levels: the loop body is never
entered and num_levels = 0. -/
theorem computeNumLevels_single (hpb : Nat) :
    computeNumLevels hpb 1 = .ok 0 := rfl

/-- With num_levels = 0 and block_size < 2 * digest_size, the very
first hash_one_block overfills the root sink (its new filled mark plus
digest_size exceeds block_size), so the ascent immediately trips the
WARN_ON(level >= num_levels) guard and returns -EINVAL. -/
theorem hashUpward_guard {alg : fsverity_hash_alg} {bs : Nat}
    {salt : List Nat} {bufs : List (List Nat)}
    (halg : HashAlgOK alg) (hbs : bs < 2 * alg.digest_size)
    (hroot : getBuf bufs 1 = []) :
    hashUpward alg bs salt 0 2 bufs 0 =
      (.err (-22),
       [.ctxInit, .update salt,
        .update (getBuf bufs 0 ++
          List.replicate (bs - (getBuf bufs 0).length) 0),
        .ctxFinal]) := by
  rw [hashUpward]
  simp only [hash_one_block]
  rw [hroot]
  have hlen : (([] : List Nat) ++ alg.hashFull (salt ++ (getBuf bufs 0 ++
      List.replicate (bs - (getBuf bufs 0).length) 0))).length =
      alg.digest_size := by
    rw [List.nil_append, halg]
  rw [if_pos (by rw [decide_eq_true_eq, hlen]; omega), if_pos (by omega)]

set_option maxRecDepth 40000 in
/-- Claim C6 is false as stated.  Two concrete refutations.  (1) The
section-3 constraint block_size >= 2 * digest_size is not checked by
the validation phase: with SHA-256 (digest_size 32) and
block_size = 32 < 2 * 32 but file_size = 0, libfsverity_compute_digest
SUCCEEDS (the empty-file short circuit runs before any constraint on
digest packing matters).  (2) With block_size = 1 and a 2-byte file the
call does not return -EINVAL either: it runs into the
hashes_per_block = 1 / 32 = 0 division by zero, i.e. undefined
behaviour, not an error return. -/
theorem claim_C6_counterexample :
    (is_power_of_2 32 = true ∧ 32 < 2 * 32 ∧
      libfsverity_compute_digest toy256 toy512 true
        (some ⟨1, 1, 32, 0, none, 0, []⟩) true [] =
        .ok ⟨1, 32, List.replicate 32 7⟩ []) ∧
    (is_power_of_2 1 = true ∧ 1 < 2 * 32 ∧
      libfsverity_compute_digest toy256 toy512 true
        (some ⟨1, 1, 1, 0, none, 2, []⟩) true [0, 0] = .undef) := by
  exact ⟨⟨by decide, by decide, by decide⟩, by decide, by decide, by decide⟩

/-- Claim C6 (amended): a block_size that is not a power of two is
rejected by the validation phase with -EINVAL (distinct diagnostic).
A power-of-two block_size below 2 * digest_size is NOT rejected up
front; but for a nonempty file, outside the division-by-zero corner
(digest_size <= block_size, or a single data block), the internal
guards of compute_root_hash fire and the call still returns -EINVAL:
with hashes_per_block = 1 the level count overflows 64 levels, and with
a single block the root sink overfills and the
WARN_ON(level >= num_levels) guard trips.  (When digest_size >
block_size and the file spans several blocks, the C code instead
divides by zero -- see C10.) -/
theorem claim_C6_amended (h256 h512 : List Nat → List Nat)
    (p : libfsverity_merkle_tree_params) (content : List Nat)
    (alg : fsverity_hash_alg)
    (h256ok : ∀ m, (h256 m).length = 32)
    (h512ok : ∀ m, (h512 m).length = 64) :
    (p.version = 1 → is_power_of_2 p.block_size = false →
      libfsverity_compute_digest h256 h512 true (some p) true content =
        .err (-22) .badBlockSize) ∧
    (p.version = 1 → is_power_of_2 p.block_size = true →
      p.salt_size ≤ 32 → ¬(p.salt_size ≠ 0 ∧ p.salt = none) →
      (p.reserved.all fun r => r == 0) = true →
      libfsverity_find_hash_alg_by_num h256 h512 p.hash_algorithm =
        some alg →
      p.block_size < 2 * alg.digest_size → 0 < p.file_size →
      (alg.digest_size ≤ p.block_size ∨ p.file_size ≤ p.block_size) →
      libfsverity_compute_digest h256 h512 true (some p) true content =
        .err (-22) .internalGuard) := by
  constructor
  · intro hver hpow
    rw [libfsverity_compute_digest, if_neg (by simp)]
    rw [if_neg (by omega), if_pos hpow]
  · intro hver hpow hss hnull hres hfind h2ds hfs hcorner
    have halg : HashAlgOK alg := by
      rcases find_alg_cases hfind with ⟨_, rfl⟩ | ⟨_, rfl⟩
      · exact fun m => h256ok m
      · exact fun m => h512ok m
    have hbspos : 0 < p.block_size := by
      have := (is_power_of_2_spec hpow).1
      omega
    have hds : 0 < alg.digest_size := by omega
    have hrooterr : ∃ evs, compute_root_hash alg content p.file_size
        p.block_size (p.salt.getD []) p.salt_size = .err (-22) evs := by
      by_cases hblocks : 2 ≤ DIV_ROUND_UP p.file_size p.block_size
      · have hfsbs : p.block_size < p.file_size := by
          by_contra hcon
          rw [div_round_up_eq_one hfs (by omega)] at hblocks
          omega
        have hdsbs : alg.digest_size ≤ p.block_size := by
          rcases hcorner with h | h
          · exact h
          · omega
        have hpb1 : p.block_size / alg.digest_size = 1 := by
          have hlt : p.block_size / alg.digest_size < 2 := by
            rw [Nat.div_lt_iff_lt_mul hds]
            omega
          have hge : 1 ≤ p.block_size / alg.digest_size := by
            rw [Nat.le_div_iff_mul_le hds]
            omega
          omega
        refine ⟨[], ?_⟩
        rw [compute_root_hash, if_neg (by omega), hpb1,
          computeNumLevels_one hblocks]
      · have hb1 : DIV_ROUND_UP p.file_size p.block_size = 1 := by
          have := div_round_up_pos hfs hbspos
          omega
        have hlist : blockList content p.file_size p.block_size =
            [(0, min p.block_size p.file_size,
              content.take (min p.block_size p.file_size))] := by
          rw [blockList, hb1]
          simp only [List.range_succ, List.range_zero, List.nil_append,
            List.map_cons, List.map_nil, Nat.zero_mul, Nat.sub_zero,
            List.drop_zero]
        apply Exists.intro
        rw [compute_root_hash, if_neg (by omega), hb1,
          computeNumLevels_single]
        dsimp only
        rw [hlist, streamLoop.eq_def]
        dsimp only
        simp only [Nat.zero_add]
        rw [hashUpward_guard halg h2ds (by
          rw [getBuf_set_ne _ _ (by omega), getBuf_replicate])]
    obtain ⟨evs, hrooterr⟩ := hrooterr
    rw [libfsverity_compute_digest, if_neg (by simp)]
    rw [if_neg (by omega), if_neg (by simp [hpow]), if_neg (by omega),
      if_neg hnull, if_neg (by simp [hres]), hfind]
    dsimp only
    rw [hrooterr]

/-- Witness for the amended C6: SHA-256 stand-in, block_size 32 (a
power of two, below 2 * 32), a 10-byte file: -EINVAL via the internal
guard. -/
theorem claim_C6_amended_witness :
    libfsverity_compute_digest toy256 toy512 true
      (some ⟨1, 1, 32, 0, none, 10, []⟩) true (List.replicate 10 1) =
      .err (-22) .internalGuard :=
  (claim_C6_amended toy256 toy512 ⟨1, 1, 32, 0, none, 10, []⟩
    (List.replicate 10 1) ⟨32, 64, toy256⟩
    (fun m => by simp [toy256]) (fun m => by simp [toy512])).2
    rfl (by decide) (by decide) (fun h => h.1 rfl) (by decide) rfl
    (by decide) (by decide) (Or.inl (by decide))

set_option maxRecDepth 40000 in
/-- Claim C10 is false as stated: passing the validation phase does not
make hashes_per_block = block_size / digest_size at least 1.
Concretely, params (version 1, SHA-256, block_size 16, no salt,
file_size 32) pass every validation check -- 16 is a power of two, the
algorithm resolves, reserved is clear -- yet 16 / 32 = 0 and the
num_levels ceiling division DIV_ROUND_UP(blocks, 0) divides by zero:
the model reaches the distinguished undefined-behaviour outcome. -/
theorem claim_C10_counterexample :
    is_power_of_2 16 = true ∧
    (libfsverity_find_hash_alg_by_num toy256 toy512 1).isSome = true ∧
    16 / 32 = 0 ∧
    computeNumLevels (16 / 32) (DIV_ROUND_UP 32 16) = .undef ∧
    libfsverity_compute_digest toy256 toy512 true
      (some ⟨1, 1, 16, 0, none, 32, []⟩) true (List.replicate 32 1) =
      .undef := by
  exact ⟨by decide, rfl, by decide, by decide, by decide⟩

/-- Claim C10 (amended): it is digest_size <= block_size (not the
validation phase, which never compares the two) that makes
hashes_per_block = block_size / digest_size at least 1; under that
bound the num_levels computation and compute_root_hash as a whole are
free of the division-by-zero undefined behaviour. -/
theorem claim_C10_amended (alg : fsverity_hash_alg)
    (content salt : List Nat) (file_size block_size salt_size : Nat)
    (hds : 0 < alg.digest_size) (hdsbs : alg.digest_size ≤ block_size) :
    1 ≤ block_size / alg.digest_size ∧
    computeNumLevels (block_size / alg.digest_size)
      (DIV_ROUND_UP file_size block_size) ≠ .undef ∧
    compute_root_hash alg content file_size block_size salt salt_size ≠
      .undef := by
  have h1 : 1 ≤ block_size / alg.digest_size := by
    rw [Nat.le_div_iff_mul_le hds]
    omega
  have h2 : computeNumLevels (block_size / alg.digest_size)
      (DIV_ROUND_UP file_size block_size) ≠ .undef :=
    numLevelsAux_ne_undef h1 66 _ 0
      (by rw [FS_VERITY_MAX_LEVELS]; omega) (by omega)
  refine ⟨h1, h2, ?_⟩
  rw [compute_root_hash]
  split
  · simp
  · rcases hc : computeNumLevels (block_size / alg.digest_size)
        (DIV_ROUND_UP file_size block_size) with n | _ | _
    · dsimp only
      rcases hsl : streamLoop alg block_size
          (padded_salt alg salt salt_size) n
          (blockList content file_size block_size)
          (List.replicate (n + 2) []) with ⟨o, evs⟩
      rcases o with bufs | c
      · dsimp only
        split
        · simp
        · simp
      · simp
    · simp
    · exact absurd hc h2

/-- Witness for the amended C10: SHA-256 stand-in, block size 64, a
100-byte file. -/
theorem claim_C10_amended_witness :
    1 ≤ 64 / 32 ∧
    computeNumLevels (64 / 32) (DIV_ROUND_UP 100 64) ≠ .undef ∧
    compute_root_hash ⟨32, 64, toy256⟩ (List.replicate 100 2)
      100 64 [] 0 ≠ .undef :=
  claim_C10_amended ⟨32, 64, toy256⟩ (List.replicate 100 2) [] 100 64 0
    (by decide) (by decide)


end FsVerity
